import Mathlib

/-!
# go-record: dot-path access to nested string-keyed maps

A verification development for `record.go`.  The Go program works on
`map[string]interface{}` values whose entries are either leaves or further maps
of the same type ("composite maps").  The three unexported functions `get`,
`set` and `filter` carry all of the logic; the exported methods of `Record`
split a path string on "." and delegate to them.

Two embeddings of the same functions are given.  The first takes a map by
value, as a tree of association lists: it covers the maps that are not nil and
share no nested map, and it is the one used for the reads and for `filter`.
The second (`Store`) keeps the map objects in a store, as Go does: a map value
is nil or an address, `set` changes the object in place, and two keys may hold
the same object.  It is the one used where a write on an arbitrary map is at
stake.
-/

namespace GoRecord

/-! ## Data model -/

/-- Dynamic values held in an `interface{}` slot: the nil interface, a few leaf
types, and the one type the program inspects, `map[string]interface{}`.  A map
is kept as an association list read by first match; the maps are those built by
`make` or by a map literal (non-nil), and the structure is a tree. -/
inductive Value where
  | nil : Value
  | int (n : Int) : Value
  | str (s : String) : Value
  | bool (b : Bool) : Value
  | map (entries : List (String × Value)) : Value

/-- The Go type `map[string]interface{}`. -/
abbrev CMap := List (String × Value)

/-- The dynamic type test `x.(type) == map[string]interface{}`. -/
def Value.isMap : Value → Bool
  | .map _ => true
  | _ => false

/-- The two-result map read `x, prs := m[k]`, as an option. -/
def lookup : CMap → String → Option Value
  | [], _ => none
  | (k', v) :: rest, k => if k' = k then some v else lookup rest k

/-- The map write `m[k] = x`: the entry of `k` is replaced where it stands, and
a key that is not there yet is added. -/
def insert : CMap → String → Value → CMap
  | [], k, x => [(k, x)]
  | (k', v) :: rest, k, x => if k' = k then (k', x) :: rest else (k', v) :: insert rest k x

/-- The function `get` of record.go: the value at a list of segments and whether
it is present. -/
def get (m : CMap) : List String → Value × Bool
  | [] => (Value.nil, false)
  | k :: rest =>
    match rest with
    | [] =>
      match lookup m k with
      | some x => (x, true)
      | none => (Value.nil, false)
    | _ :: _ =>
      match lookup m k with
      | some (Value.map m2) => get m2 rest
      | _ => (Value.nil, false)

/-- Outcome of a call that mutates a map in place: the map as the call leaves
it, and whether the call stopped in a run-time panic. -/
structure Outcome where
  m : CMap
  fault : Bool

/-- The function `set` of record.go on a map taken by value (not nil, no
shared nested map; `Store.set` covers the others).  The type assertion
`m[path[0]].(map[string]interface{})` panics when the entry is not a map; the
map is then left as it was at that moment. -/
def set (m : CMap) : List String → Value → Outcome
  | [], _ => ⟨m, false⟩
  | k :: rest, x =>
    match rest with
    | [] => ⟨insert m k x, false⟩
    | _ :: _ =>
      let m1 := if (lookup m k).isNone then insert m k (Value.map []) else m
      match lookup m1 k with
      | some (Value.map sub) =>
        let r := set sub rest x
        ⟨insert m1 k (Value.map r.m), r.fault⟩
      | _ => ⟨m1, true⟩

/-- Segments of a list of characters cut at every "."; the result always has
at least one segment. -/
def splitDot : List Char → List (List Char)
  | [] => [[]]
  | c :: cs =>
    if c = '.' then [] :: splitDot cs
    else
      match splitDot cs with
      | [] => [[c]]
      | seg :: segs => (c :: seg) :: segs

/-- The call `strings.Split(path, ".")`. -/
def Split (path : String) : List String :=
  (splitDot path.data).map String.mk

/-- One turn of the loop of `filter`: the path string is split, read in the
source map, and written into the destination when it is present there.  In Go
the value written is shared with the source map; a later write that goes through
it stores at a path of the source the value the source holds there, which
changes nothing (`set_get_same`), so the source stays as it is and the
destination is the one obtained with a copy of the value. -/
def filterStep (m : CMap) (s : CMap) (pathStr : String) : Outcome :=
  let p := Split pathStr
  let r := get m p
  if r.2 then set s p r.1 else ⟨s, false⟩

/-- The loop of `filter` from a destination `s` on: a panic in `set` ends the
run with the destination as it stands. -/
def filterLoop (m : CMap) : CMap → List String → Outcome
  | s, [] => ⟨s, false⟩
  | s, pathStr :: paths =>
    let r := filterStep m s pathStr
    if r.fault then r else filterLoop m r.m paths

/-- The function `filter` of record.go, starting from a fresh empty map. -/
def filter (m : CMap) (paths : List String) : Outcome :=
  filterLoop m [] paths

/-- The type `Record`, a wrapper of one composite map. -/
structure Record where
  data : CMap

/-- The constructor `New`. -/
def New : Record := ⟨[]⟩

/-- The constructor `Init`. -/
def Init (m : CMap) : Record := ⟨m⟩

/-- The method `AsMap`. -/
def Record.AsMap (r : Record) : CMap := r.data

/-- The method `Get`. -/
def Record.Get (r : Record) (path : String) : Value × Bool :=
  get r.data (Split path)

/-- The method `Set`: the record after the call and whether the call panicked. -/
def Record.Set (r : Record) (path : String) (x : Value) : Record × Bool :=
  let o := set r.data (Split path) x
  (⟨o.m⟩, o.fault)

/-- The method `Filter`. -/
def Record.Filter (r : Record) (paths : List String) : Record × Bool :=
  let o := filter r.data paths
  (Init o.m, o.fault)

/-- The function `FilterMap`. -/
def FilterMap (m : CMap) (paths : List String) : Outcome :=
  filter m paths

/-- The map returned by `makeExample` in record_test.go. -/
def makeExample : CMap :=
  [("1", Value.map [("1", Value.int 11), ("2", Value.int 12)]),
   ("2", Value.map [("1", Value.int 21), ("2", Value.int 22)]),
   ("3", Value.map [("1", Value.map [("1", Value.map [("1", Value.str "value")])])])]

/-- The map `subexample` of record_test.go. -/
def subexample : CMap :=
  [("1", Value.map [("2", Value.int 12)]),
   ("3", Value.map [("1", Value.map [("1", Value.map [("1", Value.str "value")])])])]

/-! ## Notions used to state the properties -/

/-- Descent from a map along a list of keys through nested maps only: the map
reached, if every key is present and holds a map. -/
def descend : CMap → List String → Option CMap
  | m, [] => some m
  | m, k :: ks =>
    match lookup m k with
    | some (Value.map sub) => descend sub ks
    | _ => none

/-- Reading further segments below a value already reached. -/
def getV (v : Value) : List String → Value × Bool
  | [] => (v, true)
  | k :: ks =>
    match v with
    | Value.map sub => get sub (k :: ks)
    | _ => (Value.nil, false)

/-- The entries of a value that is a map, and no entries otherwise. -/
def asMap : Value → CMap
  | Value.map sub => sub
  | _ => []

/-- Equality of values up to the order in which a map lists its keys, as
`reflect.DeepEqual` decides it: leaves are equal, and two maps have the same
keys with equal values under each. -/
inductive DeepEqual : Value → Value → Prop
  | nil : DeepEqual Value.nil Value.nil
  | int (n : Int) : DeepEqual (Value.int n) (Value.int n)
  | str (s : String) : DeepEqual (Value.str s) (Value.str s)
  | bool (b : Bool) : DeepEqual (Value.bool b) (Value.bool b)
  | map (m1 m2 : CMap)
      (keys : ∀ k, (lookup m1 k).isSome = (lookup m2 k).isSome)
      (vals : ∀ k v1 v2, lookup m1 k = some v1 → lookup m2 k = some v2 → DeepEqual v1 v2) :
      DeepEqual (Value.map m1) (Value.map m2)

/-- A segment before the last one of `p` is present and holds a value that is
not a map, every segment before it holding a map: `p = pre ++ k :: post` with
`post` not empty, the descent along `pre` reaches a map, and that map binds `k`
to a value that is not a map. -/
def leafOnPath (m : CMap) (p : List String) : Prop :=
  ∃ pre k post m' v, p = pre ++ k :: post ∧ post ≠ [] ∧ descend m pre = some m' ∧
    lookup m' k = some v ∧ v.isMap = false

/-- What the loop of `filter` keeps true of its destination `s` once the path
strings `done` have been handled: a handled path that resolves in the source
reads in `s`, with everything below it, as it reads in the source; and whatever
resolves in `s` lies below such a path, or is a map lying above one. -/
def FilterInv (m : CMap) (done : List String) (s : CMap) : Prop :=
  (∀ p ∈ done, (get m (Split p)).2 = true →
      ∀ r, get s (Split p ++ r) = get m (Split p ++ r)) ∧
  (∀ q, (get s q).2 = true →
      (∃ p ∈ done, (get m (Split p)).2 = true ∧ Split p <+: q) ∨
      ((get s q).1.isMap = true ∧ ∃ p ∈ done, (get m (Split p)).2 = true ∧ q <+: Split p))

/-- Two maps read alike along every list of segments: the same paths are
present, the same ones hold maps, and the leaves are equal. -/
def SamePaths (m1 m2 : CMap) : Prop :=
  ∀ q, (get m1 q).2 = (get m2 q).2 ∧ (get m1 q).1.isMap = (get m2 q).1.isMap ∧
    ((get m1 q).1.isMap = false → (get m1 q).1 = (get m2 q).1)

/-- The value `x` wrapped in one-key maps, one for each key of the list: for
the keys `k2 ... kn` the value `{k2: ... {kn: x}}`, and `x` itself for no key. -/
def chain : List String → Value → Value
  | [], x => x
  | k :: ks, x => Value.map [(k, chain ks x)]

/-- The keys of a map, in the order of its entries. -/
def keys (m : CMap) : List String := m.map Prod.fst

/-! ## Maps held by reference -/

/-- Dynamic values with maps held by reference, as Go holds them: a value of
type `map[string]interface{}` is the nil map (`none`) or the address of a map
object, and two entries may hold the same address. -/
inductive RValue where
  | nil : RValue
  | int (n : Int) : RValue
  | str (s : String) : RValue
  | bool (b : Bool) : RValue
  | mapRef (r : Option Nat) : RValue
  deriving DecidableEq

/-- The dynamic type test `x.(type) == map[string]interface{}`: a nil map has
that type as well. -/
def RValue.isMap : RValue → Bool
  | .mapRef _ => true
  | _ => false

/-- A value of the Go type `map[string]interface{}`: nil, or an address. -/
abbrev Ref := Option Nat

/-- The entries of one map object. -/
abbrev Obj := List (String × RValue)

/-- The read of a key in the entries of a map object. -/
def Obj.find : Obj → String → Option RValue
  | [], _ => none
  | (k', v) :: rest, k => if k' = k then some v else Obj.find rest k

/-- The entries of a map object after `m[k] = x`. -/
def Obj.put : Obj → String → RValue → Obj
  | [], k, x => [(k, x)]
  | (k', v) :: rest, k, x => if k' = k then (k', x) :: rest else (k', v) :: Obj.put rest k x

/-- The map objects of a run: the entries of the object at each address, and
the first address that `make` has not handed out yet. -/
structure Store where
  next : Nat
  obj : Nat → Obj

/-- The entries a map value shows to a read: none for the nil map. -/
def Store.entries (h : Store) : Ref → Obj
  | none => []
  | some a => h.obj a

/-- The two-result map read `x, prs := m[k]`, which is allowed on a nil map. -/
def Store.read (h : Store) (m : Ref) (k : String) : Option RValue :=
  Obj.find (h.entries m) k

/-- The map write `m[k] = x`: on a nil map Go panics with "assignment to entry
in nil map" (`none`), otherwise the object is changed in place. -/
def Store.write (h : Store) (m : Ref) (k : String) (x : RValue) : Option Store :=
  match m with
  | none => none
  | some a => some ⟨h.next, Function.update h.obj a (Obj.put (h.obj a) k x)⟩

/-- The store after `make(map[string]interface{})`; the new empty map is at
the address `h.next`. -/
def Store.make (h : Store) : Store :=
  ⟨h.next + 1, Function.update h.obj h.next []⟩

/-- The two run-time panics that `set` can raise. -/
inductive Panic where
  | typeAssertion : Panic
  | nilMapWrite : Panic
  deriving DecidableEq

/-- Outcome of a call on a store: the store as the call leaves it, and the
panic that stopped it, if any. -/
structure Run where
  store : Store
  panic : Option Panic

/-- The function `get` of record.go on maps held by reference. -/
def Store.get (h : Store) (m : Ref) : List String → RValue × Bool
  | [] => (RValue.nil, false)
  | k :: rest =>
    match rest with
    | [] =>
      match h.read m k with
      | some x => (x, true)
      | none => (RValue.nil, false)
    | _ :: _ =>
      match h.read m k with
      | some (RValue.mapRef m2) => Store.get h m2 rest
      | _ => (RValue.nil, false)

/-- Lines 111 to 113 of record.go: when the key is absent, a new empty map is
made and stored under it; `none` when that write panics. -/
def Store.ensure (h : Store) (m : Ref) (k : String) : Option Store :=
  if (h.read m k).isNone then h.make.write m k (RValue.mapRef (some h.next)) else some h

/-- The function `set` of record.go on maps held by reference: the nested map
is changed in place, a write into a nil map panics, and so does the type
assertion on an entry that is not a map. -/
def Store.set (h : Store) (m : Ref) : List String → RValue → Run
  | [], _ => ⟨h, none⟩
  | k :: rest, x =>
    match rest with
    | [] =>
      match h.write m k x with
      | some h1 => ⟨h1, none⟩
      | none => ⟨h, some Panic.nilMapWrite⟩
    | _ :: _ =>
      match h.ensure m k with
      | none => ⟨h, some Panic.nilMapWrite⟩
      | some h1 =>
        match h1.read m k with
        | some (RValue.mapRef m2) => Store.set h1 m2 rest x
        | _ => ⟨h1, some Panic.typeAssertion⟩

/-- The store in which `set` goes on after it has created a map under the
absent key `k` of the object at `a`. -/
def Store.grown (h : Store) (a : Nat) (k : String) : Store :=
  ⟨h.next + 1, Function.update (Function.update h.obj h.next []) a
    (Obj.put (Function.update h.obj h.next [] a) k (RValue.mapRef (some h.next)))⟩

/-- The method `Get` of a record whose field `data` is the map `data`. -/
def Store.Get (h : Store) (data : Ref) (path : String) : RValue × Bool :=
  h.get data (Split path)

/-- The method `Set` of a record whose field `data` is the map `data`. -/
def Store.Set (h : Store) (data : Ref) (path : String) (x : RValue) : Run :=
  h.set data (Split path) x

/-- Descent from a map along a list of keys through entries that hold maps:
the map value reached, which may be the nil map. -/
def Store.descend (h : Store) : Ref → List String → Option Ref
  | m, [] => some m
  | m, k :: ks =>
    match h.read m k with
    | some (RValue.mapRef m2) => Store.descend h m2 ks
    | _ => none

/-- The address of the map object reached by the descent along `q`, if the
descent reaches one. -/
def Store.addrAt (h : Store) (m : Ref) (q : List String) : Option Nat :=
  (h.descend m q).join

/-- A segment before the last one of `p` is present and holds a value that is
not a map, the segments before it holding maps. -/
def Store.leafOnPath (h : Store) (m : Ref) (p : List String) : Prop :=
  ∃ pre k post m' v, p = pre ++ k :: post ∧ post ≠ [] ∧ h.descend m pre = some m' ∧
    h.read m' k = some v ∧ v.isMap = false

/-- The descent along a proper prefix of `p`, the empty one included, reaches
the nil map, so that the next segment of `p` has to be written into it. -/
def Store.nilOnPath (h : Store) (m : Ref) (p : List String) : Prop :=
  ∃ pre post, p = pre ++ post ∧ post ≠ [] ∧ h.descend m pre = some none

/-- The value `v` is the chain of one-key maps along the keys `ks` that ends in
`x`: `{k1: {k2: ... x}}`, each map an object of the store. -/
def Store.holdsChain (h : Store) : RValue → List String → RValue → Prop
  | v, [], x => v = x
  | v, k :: ks, x => ∃ a w, v = RValue.mapRef (some a) ∧ h.obj a = [(k, w)] ∧
      Store.holdsChain h w ks x

/-- No map object is met at two different places on the descents along `p` and
along `q`: two prefixes of the paths that reach the same object are equal. -/
def Store.apart (h : Store) (m : Ref) (p q : List String) : Prop :=
  ∀ p0 ∈ p.inits, ∀ q0 ∈ q.inits,
    h.addrAt m p0 = h.addrAt m q0 → h.addrAt m p0 = none ∨ p0 = q0

/-- The map objects met on the descent along `q` are objects that the store
has handed out. -/
def Store.allocatedAlong (h : Store) (m : Ref) (q : List String) : Prop :=
  ∀ q0 ∈ q.inits, ∀ a ∈ h.addrAt m q0, a < h.next

/-- The map of `makeExample` as map objects: the root is at address 0. -/
def exampleStore : Store :=
  ⟨6, fun a =>
    match a with
    | 0 => [("1", RValue.mapRef (some 1)), ("2", RValue.mapRef (some 2)),
            ("3", RValue.mapRef (some 3))]
    | 1 => [("1", RValue.int 11), ("2", RValue.int 12)]
    | 2 => [("1", RValue.int 21), ("2", RValue.int 22)]
    | 3 => [("1", RValue.mapRef (some 4))]
    | 4 => [("1", RValue.mapRef (some 5))]
    | 5 => [("1", RValue.str "value")]
    | _ => []⟩

/-- A map whose key "a" holds a nil map: `map[string]interface{}{"a":
map[string]interface{}(nil)}`, the root at address 0. -/
def nilEntryStore : Store :=
  ⟨1, fun a =>
    match a with
    | 0 => [("a", RValue.mapRef none)]
    | _ => []⟩

/-- The example map after `v, _ := r.Get("1"); r.Set("4", v)`: the keys "1" and
"4" of the root hold the same map object. -/
def sharedStore : Store :=
  (exampleStore.Set (some 0) "4" (exampleStore.Get (some 0) "1").1).store

/-! ## Reading and writing one key -/

theorem lookup_insert_self (m : CMap) (k : String) (x : Value) :
    lookup (insert m k x) k = some x := by
  induction m with
  | nil => simp [GoRecord.insert, lookup]
  | cons e rest ih =>
    obtain ⟨k', v⟩ := e
    by_cases h : k' = k
    · simp [GoRecord.insert, lookup, h]
    · simp [GoRecord.insert, lookup, h, ih]

theorem lookup_insert_ne (m : CMap) (k k2 : String) (x : Value) (h : k ≠ k2) :
    lookup (insert m k x) k2 = lookup m k2 := by
  induction m with
  | nil => simp [GoRecord.insert, lookup, h]
  | cons e rest ih =>
    obtain ⟨k', v⟩ := e
    by_cases h1 : k' = k
    · subst h1
      simp [GoRecord.insert, lookup, h]
    · simp [GoRecord.insert, lookup, h1, ih]

theorem insert_lookup_same (m : CMap) (k : String) (x : Value) (h : lookup m k = some x) :
    insert m k x = m := by
  induction m with
  | nil => simp [lookup] at h
  | cons e rest ih =>
    obtain ⟨k', v⟩ := e
    by_cases h1 : k' = k
    · simp [lookup, h1] at h
      simp [GoRecord.insert, h1, h]
    · simp [lookup, h1] at h
      simp [GoRecord.insert, h1, ih h]

/-! ## Unfolding `get` and `set` -/

theorem get_nil (m : CMap) : get m [] = (Value.nil, false) := rfl

theorem get_one (m : CMap) (k : String) :
    get m [k] = match lookup m k with
      | some x => (x, true)
      | none => (Value.nil, false) := rfl

theorem get_cons2 (m : CMap) (k k2 : String) (rest : List String) :
    get m (k :: k2 :: rest) = match lookup m k with
      | some (Value.map m2) => get m2 (k2 :: rest)
      | _ => (Value.nil, false) := rfl

theorem set_nil (m : CMap) (x : Value) : set m [] x = ⟨m, false⟩ := rfl

theorem set_one (m : CMap) (k : String) (x : Value) :
    set m [k] x = ⟨insert m k x, false⟩ := rfl

theorem set_cons2 (m : CMap) (k k2 : String) (rest : List String) (x : Value) :
    set m (k :: k2 :: rest) x =
      match lookup (if (lookup m k).isNone then insert m k (Value.map []) else m) k with
      | some (Value.map sub) =>
        ⟨insert (if (lookup m k).isNone then insert m k (Value.map []) else m) k
            (Value.map (set sub (k2 :: rest) x).m), (set sub (k2 :: rest) x).fault⟩
      | _ => ⟨if (lookup m k).isNone then insert m k (Value.map []) else m, true⟩ := rfl

theorem get_cons2_map (m sub : CMap) (k k2 : String) (rest : List String)
    (h : lookup m k = some (Value.map sub)) :
    get m (k :: k2 :: rest) = get sub (k2 :: rest) := by
  rw [get_cons2, h]

theorem get_cons2_none (m : CMap) (k k2 : String) (rest : List String)
    (h : lookup m k = none) :
    get m (k :: k2 :: rest) = (Value.nil, false) := by
  rw [get_cons2, h]

theorem get_cons2_leaf (m : CMap) (k k2 : String) (rest : List String) (v : Value)
    (h : lookup m k = some v) (hv : v.isMap = false) :
    get m (k :: k2 :: rest) = (Value.nil, false) := by
  rw [get_cons2, h]
  cases v <;> first | rfl | simp [Value.isMap] at hv

theorem set_cons2_map (m sub : CMap) (k k2 : String) (rest : List String) (x : Value)
    (h : lookup m k = some (Value.map sub)) :
    set m (k :: k2 :: rest) x =
      ⟨insert m k (Value.map (set sub (k2 :: rest) x).m), (set sub (k2 :: rest) x).fault⟩ := by
  rw [set_cons2]
  simp [h]

theorem set_cons2_none (m : CMap) (k k2 : String) (rest : List String) (x : Value)
    (h : lookup m k = none) :
    set m (k :: k2 :: rest) x =
      ⟨insert (insert m k (Value.map [])) k (Value.map (set [] (k2 :: rest) x).m),
        (set [] (k2 :: rest) x).fault⟩ := by
  rw [set_cons2]
  simp [h, lookup_insert_self]

theorem set_cons2_leaf (m : CMap) (k k2 : String) (rest : List String) (x v : Value)
    (h : lookup m k = some v) (hv : v.isMap = false) :
    set m (k :: k2 :: rest) x = ⟨m, true⟩ := by
  rw [set_cons2]
  cases v with
  | map sub => simp [Value.isMap] at hv
  | _ => simp [h]

/-- A read that does not find its path returns the nil value. -/
theorem get_not_found (m : CMap) (p : List String) (h : (get m p).2 = false) :
    get m p = (Value.nil, false) := by
  induction p generalizing m with
  | nil => rfl
  | cons k rest ih =>
    cases rest with
    | nil =>
      rw [get_one] at h ⊢
      cases hl : lookup m k with
      | none => rfl
      | some v => rw [hl] at h; simp at h
    | cons k2 rest2 =>
      cases hl : lookup m k with
      | none => exact get_cons2_none m k k2 rest2 hl
      | some v =>
        cases hv : v.isMap with
        | false => exact get_cons2_leaf m k k2 rest2 v hl hv
        | true =>
          cases v <;> simp [Value.isMap] at hv
          rename_i sub
          rw [get_cons2_map m sub k k2 rest2 hl] at h ⊢
          exact ih sub h

theorem get_empty (p : List String) : get [] p = (Value.nil, false) := by
  cases p with
  | nil => rfl
  | cons k rest =>
    cases rest with
    | nil => rfl
    | cons k2 rest2 => rfl

/-! ## Descent -/

theorem descend_cons_map (m sub : CMap) (k : String) (ks : List String)
    (h : lookup m k = some (Value.map sub)) :
    descend m (k :: ks) = descend sub ks := by
  simp [descend, h]

theorem descend_cons_none (m : CMap) (k : String) (ks : List String)
    (h : lookup m k = none) : descend m (k :: ks) = none := by
  simp [descend, h]

theorem descend_cons_leaf (m : CMap) (k : String) (ks : List String) (v : Value)
    (h : lookup m k = some v) (hv : v.isMap = false) : descend m (k :: ks) = none := by
  cases v with
  | map sub => simp [Value.isMap] at hv
  | _ => simp [descend, h]

theorem descend_cons_some (m m' : CMap) (k : String) (ks : List String)
    (h : descend m (k :: ks) = some m') :
    ∃ sub, lookup m k = some (Value.map sub) ∧ descend sub ks = some m' := by
  cases hl : lookup m k with
  | none => rw [descend_cons_none m k ks hl] at h; cases h
  | some v =>
    cases hv : v.isMap with
    | false => rw [descend_cons_leaf m k ks v hl hv] at h; cases h
    | true =>
      cases v with
      | map sub => exact ⟨sub, rfl, by rw [descend_cons_map m sub k ks hl] at h; exact h⟩
      | _ => simp [Value.isMap] at hv

/-! ## Reads -/

theorem get_of_descend (m : CMap) (ks : List String) (kn : String) (m' : CMap)
    (hd : descend m ks = some m') :
    get m (ks ++ [kn]) = get m' [kn] := by
  induction ks generalizing m with
  | nil =>
    simp [descend] at hd
    subst hd
    rfl
  | cons k ks ih =>
    obtain ⟨sub, hl, hs⟩ := descend_cons_some m m' k ks hd
    obtain ⟨k2, r, hr⟩ : ∃ k2 r, ks ++ [kn] = k2 :: r := by
      cases ks with
      | nil => exact ⟨kn, [], rfl⟩
      | cons a b => exact ⟨a, b ++ [kn], rfl⟩
    have h1 : get m (k :: ks ++ [kn]) = get sub (ks ++ [kn]) := by
      show get m (k :: (ks ++ [kn])) = _
      rw [hr, get_cons2_map m sub k k2 r hl]
    rw [h1]
    exact ih sub hs

theorem get_blocked (m : CMap) (pre : List String) (k : String) (post : List String)
    (m' : CMap) (hd : descend m pre = some m')
    (h : lookup m' k = none ∨ (post ≠ [] ∧ ∃ v, lookup m' k = some v ∧ v.isMap = false)) :
    get m (pre ++ k :: post) = (Value.nil, false) := by
  induction pre generalizing m with
  | nil =>
    simp [descend] at hd
    subst hd
    rcases h with h | ⟨hp, v, hl, hv⟩
    · cases post with
      | nil => show get m [k] = _; rw [get_one, h]
      | cons k2 r => exact get_cons2_none m k k2 r h
    · cases post with
      | nil => exact absurd rfl hp
      | cons k2 r => exact get_cons2_leaf m k k2 r v hl hv
  | cons a pre ih =>
    obtain ⟨sub, hl, hs⟩ := descend_cons_some m m' a pre hd
    obtain ⟨k2, r, hr⟩ : ∃ k2 r, pre ++ k :: post = k2 :: r := by
      cases pre with
      | nil => exact ⟨k, post, rfl⟩
      | cons c d => exact ⟨c, d ++ k :: post, rfl⟩
    show get m (a :: (pre ++ k :: post)) = _
    rw [hr, get_cons2_map m sub a k2 r hl, ← hr]
    exact ih sub hs

/-! ## Writes: when `set` panics -/

theorem set_empty_no_fault (p : List String) (x : Value) : (set [] p x).fault = false := by
  induction p with
  | nil => rfl
  | cons k rest ih =>
    cases rest with
    | nil => rfl
    | cons k2 r =>
      rw [set_cons2_none [] k k2 r x rfl]
      exact ih

theorem not_leafOnPath_nil (m : CMap) : ¬ leafOnPath m [] := by
  rintro ⟨pre, k, post, m', v, hp, -⟩
  simp at hp

theorem not_leafOnPath_one (m : CMap) (k : String) : ¬ leafOnPath m [k] := by
  rintro ⟨pre, k', post, m', v, hp, hne, -⟩
  have hlen := congrArg List.length hp
  simp at hlen
  have : post.length = 0 := by omega
  exact hne (List.length_eq_zero.mp this)

theorem leafOnPath_here (m : CMap) (k k2 : String) (r : List String) (v : Value)
    (hl : lookup m k = some v) (hv : v.isMap = false) : leafOnPath m (k :: k2 :: r) :=
  ⟨[], k, k2 :: r, m, v, rfl, by simp, rfl, hl, hv⟩

theorem leafOnPath_cons_map (m sub : CMap) (k : String) (rest : List String)
    (hl : lookup m k = some (Value.map sub)) :
    leafOnPath m (k :: rest) ↔ leafOnPath sub rest := by
  constructor
  · rintro ⟨pre, k', post, m', v, hp, hne, hd, hk, hv⟩
    cases pre with
    | nil =>
      simp at hp
      obtain ⟨rfl, rfl⟩ := hp
      simp [descend] at hd
      subst hd
      rw [hl] at hk
      cases hk
      simp [Value.isMap] at hv
    | cons a pre =>
      simp at hp
      obtain ⟨rfl, rfl⟩ := hp
      rw [descend_cons_map m sub k pre hl] at hd
      exact ⟨pre, k', post, m', v, rfl, hne, hd, hk, hv⟩
  · rintro ⟨pre, k', post, m', v, hp, hne, hd, hk, hv⟩
    refine ⟨k :: pre, k', post, m', v, by simp [hp], hne, ?_, hk, hv⟩
    rw [descend_cons_map m sub k pre hl]
    exact hd

theorem not_leafOnPath_cons_none (m : CMap) (k : String) (rest : List String)
    (hl : lookup m k = none) : ¬ leafOnPath m (k :: rest) := by
  rintro ⟨pre, k', post, m', v, hp, hne, hd, hk, hv⟩
  cases pre with
  | nil =>
    simp at hp
    obtain ⟨rfl, rfl⟩ := hp
    simp [descend] at hd
    subst hd
    rw [hl] at hk
    cases hk
  | cons a pre =>
    simp at hp
    obtain ⟨rfl, rfl⟩ := hp
    rw [descend_cons_none m k pre hl] at hd
    cases hd

theorem set_fault_iff_leafOnPath (m : CMap) (p : List String) (x : Value) :
    (set m p x).fault = true ↔ leafOnPath m p := by
  induction p generalizing m with
  | nil => simp [set_nil, not_leafOnPath_nil]
  | cons k rest ih =>
    cases rest with
    | nil => simp [set_one, not_leafOnPath_one]
    | cons k2 r =>
      cases hl : lookup m k with
      | none =>
        rw [set_cons2_none m k k2 r x hl]
        simp [set_empty_no_fault, not_leafOnPath_cons_none m k (k2 :: r) hl]
      | some v =>
        cases hv : v.isMap with
        | false =>
          rw [set_cons2_leaf m k k2 r x v hl hv]
          simp [leafOnPath_here m k k2 r v hl hv]
        | true =>
          cases v with
          | map sub =>
            rw [set_cons2_map m sub k k2 r x hl, leafOnPath_cons_map m sub k (k2 :: r) hl]
            exact ih sub
          | _ => simp [Value.isMap] at hv

theorem set_fault_unchanged (m : CMap) (p : List String) (x : Value)
    (h : (set m p x).fault = true) : (set m p x).m = m := by
  induction p generalizing m with
  | nil => rfl
  | cons k rest ih =>
    cases rest with
    | nil => simp [set_one] at h
    | cons k2 r =>
      cases hl : lookup m k with
      | none =>
        rw [set_cons2_none m k k2 r x hl] at h
        simp [set_empty_no_fault] at h
      | some v =>
        cases hv : v.isMap with
        | false => rw [set_cons2_leaf m k k2 r x v hl hv]
        | true =>
          cases v with
          | map sub =>
            rw [set_cons2_map m sub k k2 r x hl] at h ⊢
            simp only at h ⊢
            rw [ih sub h]
            exact insert_lookup_same m k _ hl
          | _ => simp [Value.isMap] at hv

/-! ## Reads below and above a path -/

theorem getV_nil (v : Value) : getV v [] = (v, true) := rfl

theorem getV_map (sub : CMap) (r : List String) (h : r ≠ []) :
    getV (Value.map sub) r = get sub r := by
  cases r with
  | nil => exact absurd rfl h
  | cons a b => rfl

theorem getV_leaf (v : Value) (r : List String) (h : r ≠ []) (hv : v.isMap = false) :
    getV v r = (Value.nil, false) := by
  cases r with
  | nil => exact absurd rfl h
  | cons a b =>
    cases v with
    | map sub => simp [Value.isMap] at hv
    | _ => rfl

theorem get_cons_of_lookup (m : CMap) (k : String) (r : List String) (v : Value)
    (h : lookup m k = some v) : get m (k :: r) = getV v r := by
  cases r with
  | nil => rw [get_one, h]; rfl
  | cons a b =>
    rw [get_cons2, h]
    cases v <;> rfl

theorem get_cons_of_lookup_none (m : CMap) (k : String) (r : List String)
    (h : lookup m k = none) : get m (k :: r) = (Value.nil, false) := by
  cases r with
  | nil => rw [get_one, h]
  | cons a b => exact get_cons2_none m k a b h

theorem get_congr_lookup (m1 m2 : CMap) (k : String) (r : List String)
    (h : lookup m1 k = lookup m2 k) : get m1 (k :: r) = get m2 (k :: r) := by
  cases hl : lookup m2 k with
  | none =>
    rw [get_cons_of_lookup_none m2 k r hl, get_cons_of_lookup_none m1 k r (h.trans hl)]
  | some v =>
    rw [get_cons_of_lookup m2 k r v hl, get_cons_of_lookup m1 k r v (h.trans hl)]

theorem get_append_found (m : CMap) (p r : List String) (v : Value)
    (h : get m p = (v, true)) : get m (p ++ r) = getV v r := by
  induction p generalizing m with
  | nil => simp [get_nil] at h
  | cons k rest ih =>
    cases rest with
    | nil =>
      cases hl : lookup m k with
      | none => rw [get_one, hl] at h; simp at h
      | some w =>
        rw [get_one, hl] at h
        simp at h
        subst h
        exact get_cons_of_lookup m k r w hl
    | cons k2 q =>
      cases hl : lookup m k with
      | none => rw [get_cons2_none m k k2 q hl] at h; simp at h
      | some w =>
        cases hw : w.isMap with
        | false => rw [get_cons2_leaf m k k2 q w hl hw] at h; simp at h
        | true =>
          cases w with
          | map sub =>
            rw [get_cons2_map m sub k k2 q hl] at h
            show get m (k :: k2 :: (q ++ r)) = _
            rw [get_cons2_map m sub k k2 (q ++ r) hl]
            exact ih sub h
          | _ => simp [Value.isMap] at hw

theorem get_append_not_found (m : CMap) (p r : List String) (hp : p ≠ [])
    (h : (get m p).2 = false) : get m (p ++ r) = (Value.nil, false) := by
  induction p generalizing m with
  | nil => exact absurd rfl hp
  | cons k rest ih =>
    cases rest with
    | nil =>
      cases hl : lookup m k with
      | none => exact get_cons_of_lookup_none m k r hl
      | some w => rw [get_one, hl] at h; simp at h
    | cons k2 q =>
      show get m (k :: k2 :: (q ++ r)) = _
      cases hl : lookup m k with
      | none => exact get_cons2_none m k k2 (q ++ r) hl
      | some w =>
        cases hw : w.isMap with
        | false => exact get_cons2_leaf m k k2 (q ++ r) w hl hw
        | true =>
          cases w with
          | map sub =>
            rw [get_cons2_map m sub k k2 q hl] at h
            rw [get_cons2_map m sub k k2 (q ++ r) hl]
            exact ih sub (by simp) h
          | _ => simp [Value.isMap] at hw

/-- Any non-empty prefix of a path that is present is present, and holds a map
when the prefix is proper. -/
theorem get_prefix_found (m : CMap) (p r : List String) (hp : p ≠ [])
    (h : (get m (p ++ r)).2 = true) :
    (get m p).2 = true ∧ (r ≠ [] → (get m p).1.isMap = true) := by
  cases hf : (get m p).2 with
  | false =>
    rw [get_append_not_found m p r hp hf] at h
    simp at h
  | true =>
    refine ⟨rfl, fun hr => ?_⟩
    have hg : get m p = ((get m p).1, true) := by rw [← hf]
    rw [get_append_found m p r _ hg] at h
    cases hv : (get m p).1.isMap with
    | true => rfl
    | false =>
      rw [getV_leaf _ r hr hv] at h
      simp at h

/-! ## Reads after a write -/

theorem insert_insert_self (m : CMap) (k : String) (x y : Value) :
    insert (insert m k x) k y = insert m k y := by
  induction m with
  | nil => simp [GoRecord.insert]
  | cons e rest ih =>
    obtain ⟨k', v⟩ := e
    by_cases h : k' = k
    · simp [GoRecord.insert, h]
    · simp [GoRecord.insert, h, ih]

/-- After a write that did not panic, the path written holds the value, and the
paths below it read inside that value. -/
theorem get_set_below (s : CMap) (p r : List String) (v : Value) (hp : p ≠ [])
    (hf : (set s p v).fault = false) : get (set s p v).m (p ++ r) = getV v r := by
  induction p generalizing s with
  | nil => exact absurd rfl hp
  | cons k rest ih =>
    cases rest with
    | nil =>
      rw [set_one]
      exact get_cons_of_lookup _ k r v (lookup_insert_self s k v)
    | cons k2 q =>
      show get _ (k :: k2 :: (q ++ r)) = _
      cases hl : lookup s k with
      | none =>
        rw [set_cons2_none s k k2 q v hl] at hf ⊢
        rw [get_cons2_map _ _ k k2 (q ++ r) (lookup_insert_self _ k _)]
        exact ih [] (by simp) hf
      | some w =>
        cases hw : w.isMap with
        | false => rw [set_cons2_leaf s k k2 q v w hl hw] at hf; simp at hf
        | true =>
          cases w with
          | map sub =>
            rw [set_cons2_map s sub k k2 q v hl] at hf ⊢
            rw [get_cons2_map _ _ k k2 (q ++ r) (lookup_insert_self _ k _)]
            exact ih sub (by simp) hf
          | _ => simp [Value.isMap] at hw

/-- Writing the value a path already holds changes nothing. -/
theorem set_get_same (s : CMap) (p : List String) (v : Value) (h : get s p = (v, true)) :
    set s p v = ⟨s, false⟩ := by
  induction p generalizing s with
  | nil => simp [get_nil] at h
  | cons k rest ih =>
    cases rest with
    | nil =>
      cases hl : lookup s k with
      | none => rw [get_one, hl] at h; simp at h
      | some w =>
        rw [get_one, hl] at h
        simp at h
        subst h
        rw [set_one, insert_lookup_same s k w hl]
    | cons k2 q =>
      cases hl : lookup s k with
      | none => rw [get_cons2_none s k k2 q hl] at h; simp at h
      | some w =>
        cases hw : w.isMap with
        | false => rw [get_cons2_leaf s k k2 q w hl hw] at h; simp at h
        | true =>
          cases w with
          | map sub =>
            rw [get_cons2_map s sub k k2 q hl] at h
            rw [set_cons2_map s sub k k2 q v hl, ih sub h]
            simp only
            rw [insert_lookup_same s k _ hl]
          | _ => simp [Value.isMap] at hw

/-- A write along `q ++ t` is a write of `t` inside the map found at `q` (an
empty map when `q` is absent), followed by a write of that map at `q`. -/
theorem set_append (s : CMap) (q t : List String) (v : Value) (hq : q ≠ []) (ht : t ≠ [])
    (hf : (set s (q ++ t) v).fault = false) :
    (set (asMap (get s q).1) t v).fault = false ∧
      set s (q ++ t) v = set s q (Value.map (set (asMap (get s q).1) t v).m) := by
  induction q generalizing s with
  | nil => exact absurd rfl hq
  | cons k rest ih =>
    obtain ⟨a, b, rfl⟩ : ∃ a b, t = a :: b := by
      cases t with
      | nil => exact absurd rfl ht
      | cons a b => exact ⟨a, b, rfl⟩
    cases rest with
    | nil =>
      show _ ∧ set s (k :: a :: b) v = _
      change (set s (k :: a :: b) v).fault = false at hf
      cases hl : lookup s k with
      | none =>
        rw [set_cons2_none s k a b v hl] at hf ⊢
        rw [get_one, hl, set_one]
        simp only [asMap]
        simp only at hf
        exact ⟨hf, by rw [insert_insert_self, hf]⟩
      | some w =>
        cases hw : w.isMap with
        | false => rw [set_cons2_leaf s k a b v w hl hw] at hf; simp at hf
        | true =>
          cases w with
          | map sub =>
            rw [set_cons2_map s sub k a b v hl] at hf ⊢
            rw [get_one, hl, set_one]
            simp only [asMap]
            simp only at hf
            exact ⟨hf, by rw [hf]⟩
          | _ => simp [Value.isMap] at hw
    | cons k2 q =>
      show _ ∧ set s (k :: k2 :: (q ++ a :: b)) v = _
      change (set s (k :: k2 :: (q ++ a :: b)) v).fault = false at hf
      cases hl : lookup s k with
      | none =>
        rw [set_cons2_none s k k2 (q ++ a :: b) v hl] at hf ⊢
        have h := ih [] (by simp) hf
        rw [get_empty] at h
        rw [get_cons2_none s k k2 q hl, set_cons2_none s k k2 q _ hl]
        refine ⟨h.1, ?_⟩
        have h2 : set [] (k2 :: (q ++ a :: b)) v = _ := h.2
        rw [h2]
      | some w =>
        cases hw : w.isMap with
        | false => rw [set_cons2_leaf s k k2 (q ++ a :: b) v w hl hw] at hf; simp at hf
        | true =>
          cases w with
          | map sub =>
            rw [set_cons2_map s sub k k2 (q ++ a :: b) v hl] at hf ⊢
            have h := ih sub (by simp) hf
            rw [get_cons2_map s sub k k2 q hl, set_cons2_map s sub k k2 q _ hl]
            refine ⟨h.1, ?_⟩
            have h2 : set sub (k2 :: (q ++ a :: b)) v = _ := h.2
            rw [h2]
          | _ => simp [Value.isMap] at hw

/-- A write leaves every other first-level key as it was. -/
theorem lookup_set_ne (s : CMap) (k k' : String) (rest : List String) (v : Value)
    (h : k ≠ k') : lookup (set s (k :: rest) v).m k' = lookup s k' := by
  cases rest with
  | nil => rw [set_one]; exact lookup_insert_ne s k k' v h
  | cons k2 q =>
    cases hl : lookup s k with
    | none =>
      rw [set_cons2_none s k k2 q v hl]
      simp only
      rw [lookup_insert_ne _ k k' _ h, lookup_insert_ne _ k k' _ h]
    | some w =>
      cases hw : w.isMap with
      | false => rw [set_cons2_leaf s k k2 q v w hl hw]
      | true =>
        cases w with
        | map sub =>
          rw [set_cons2_map s sub k k2 q v hl]
          exact lookup_insert_ne _ k k' _ h
        | _ => simp [Value.isMap] at hw

/-- A write changes no path that leaves the written path: when neither of `p`
and `q` is a prefix of the other, `q` reads the same after a write at `p`. -/
theorem get_set_diverge (s : CMap) (p q : List String) (v : Value)
    (h1 : ¬ p <+: q) (h2 : ¬ q <+: p) : get (set s p v).m q = get s q := by
  induction p generalizing s q with
  | nil => exact absurd (List.nil_prefix) h1
  | cons k rest ih =>
    cases q with
    | nil => exact absurd (List.nil_prefix) h2
    | cons k' q' =>
      by_cases hk : k = k'
      · subst hk
        have h1' : ¬ rest <+: q' := fun h => h1 ((List.prefix_cons_inj k).mpr h)
        have h2' : ¬ q' <+: rest := fun h => h2 ((List.prefix_cons_inj k).mpr h)
        cases rest with
        | nil => exact absurd (List.nil_prefix) h1'
        | cons k2 r =>
          cases q' with
          | nil => exact absurd (List.nil_prefix) h2'
          | cons a b =>
            cases hl : lookup s k with
            | none =>
              rw [set_cons2_none s k k2 r v hl]
              rw [get_cons2_map _ _ k a b (lookup_insert_self _ k _)]
              rw [ih [] (a :: b) h1' h2', get_empty, get_cons2_none s k a b hl]
            | some w =>
              cases hw : w.isMap with
              | false => rw [set_cons2_leaf s k k2 r v w hl hw]
              | true =>
                cases w with
                | map sub =>
                  rw [set_cons2_map s sub k k2 r v hl]
                  rw [get_cons2_map _ _ k a b (lookup_insert_self _ k _)]
                  rw [ih sub (a :: b) h1' h2', get_cons2_map s sub k a b hl]
                | _ => simp [Value.isMap] at hw
      · exact get_congr_lookup _ _ k' q' (lookup_set_ne s k k' rest v hk)

/-- Two lists of segments are related in one of three ways. -/
theorem prefix_trichotomy (p q : List String) :
    p <+: q ∨ (∃ t, t ≠ [] ∧ p = q ++ t) ∨ (¬ p <+: q ∧ ¬ q <+: p) := by
  by_cases h1 : p <+: q
  · exact Or.inl h1
  · by_cases h2 : q <+: p
    · obtain ⟨t, ht⟩ := h2
      refine Or.inr (Or.inl ⟨t, ?_, ht.symm⟩)
      rintro rfl
      apply h1
      simp at ht
      rw [ht]
    · exact Or.inr (Or.inr ⟨h1, h2⟩)

/-! ## Splitting a path string -/

theorem splitDot_ne_nil (cs : List Char) : splitDot cs ≠ [] := by
  cases cs with
  | nil => simp [splitDot]
  | cons c cs =>
    by_cases h : c = '.'
    · simp [splitDot, h]
    · cases hs : splitDot cs <;> simp [splitDot, h, hs]

theorem Split_ne_nil (path : String) : Split path ≠ [] := by
  simp [Split, splitDot_ne_nil]

/-! ## The loop of `filter` -/

theorem get_of_leafOnPath (s : CMap) (p : List String) (h : leafOnPath s p) :
    ∃ q t, p = q ++ t ∧ q ≠ [] ∧ t ≠ [] ∧ (get s q).2 = true ∧ (get s q).1.isMap = false := by
  obtain ⟨pre, k, post, m', v, hp, hne, hd, hk, hv⟩ := h
  refine ⟨pre ++ [k], post, by simp [hp], by simp, hne, ?_, ?_⟩
  · rw [get_of_descend s pre k m' hd, get_one, hk]
  · rw [get_of_descend s pre k m' hd, get_one, hk]
    exact hv

theorem pair_eta_true (x : Value × Bool) (h : x.2 = true) : x = (x.1, true) := by
  rw [← h]

theorem FilterInv_mono (m s : CMap) (d1 d2 : List String) (h : ∀ p, p ∈ d1 ↔ p ∈ d2)
    (hi : FilterInv m d1 s) : FilterInv m d2 s := by
  refine ⟨fun p hp hf r => hi.1 p ((h p).mpr hp) hf r, fun q hq => ?_⟩
  rcases hi.2 q hq with ⟨p, hp, hf, hpre⟩ | ⟨hm, p, hp, hf, hpre⟩
  · exact Or.inl ⟨p, (h p).mp hp, hf, hpre⟩
  · exact Or.inr ⟨hm, p, (h p).mp hp, hf, hpre⟩

theorem FilterInv_empty (m : CMap) : FilterInv m [] [] := by
  refine ⟨fun p hp => by simp at hp, fun q hq => ?_⟩
  rw [get_empty] at hq
  simp at hq

/-- The write that `filter` makes for a path that resolves in the source does
not panic. -/
theorem FilterInv_no_fault (m s : CMap) (done : List String) (p : String)
    (hi : FilterInv m done s) (hf : (get m (Split p)).2 = true) :
    (set s (Split p) (get m (Split p)).1).fault = false := by
  cases hfault : (set s (Split p) (get m (Split p)).1).fault with
  | false => rfl
  | true =>
    exfalso
    obtain ⟨q, t, hp, hq, ht, hfq, hleaf⟩ :=
      get_of_leafOnPath s _ ((set_fault_iff_leafOnPath s _ _).mp hfault)
    rw [hp] at hf
    have hmap := (get_prefix_found m q t hq hf).2 ht
    rcases hi.2 q hfq with ⟨p0, hp0, hf0, ⟨r, hr⟩⟩ | ⟨hm, -⟩
    · have := hi.1 p0 hp0 hf0 r
      rw [hr] at this
      rw [this, hmap] at hleaf
      cases hleaf
    · rw [hm] at hleaf
      cases hleaf

/-- After a write that did not panic, a proper prefix of the written path holds
a map. -/
theorem get_set_above (s : CMap) (q t : List String) (v : Value) (hq : q ≠ []) (ht : t ≠ [])
    (hf : (set s (q ++ t) v).fault = false) :
    get (set s (q ++ t) v).m q = (Value.map (set (asMap (get s q).1) t v).m, true) := by
  obtain ⟨-, hset⟩ := set_append s q t v hq ht hf
  rw [hset] at hf ⊢
  have h := get_set_below s q [] _ hq hf
  rw [List.append_nil] at h
  rw [h]
  rfl

theorem FilterInv_set (m s : CMap) (done : List String) (p : String)
    (hi : FilterInv m done s) (hf : (get m (Split p)).2 = true) :
    FilterInv m (p :: done) (set s (Split p) (get m (Split p)).1).m := by
  have hnf := FilterInv_no_fault m s done p hi hf
  have hne := Split_ne_nil p
  have hg := pair_eta_true _ hf
  constructor
  · intro p' hp' hf' r
    rcases prefix_trichotomy (Split p) (Split p' ++ r) with ⟨t, ht⟩ | ⟨t, htne, ht⟩ | ⟨h1, h2⟩
    · rw [← ht, get_set_below s _ t _ hne hnf, get_append_found m _ t _ hg]
    · have hp'd : p' ∈ done := by
        rcases List.mem_cons.mp hp' with rfl | h
        · exfalso
          have hl := congrArg List.length ht
          simp only [List.length_append] at hl
          have : t.length = 0 := by omega
          exact htne (List.length_eq_zero.mp this)
        · exact h
      have hsame : get s (Split p) = ((get m (Split p)).1, true) := by
        have := hi.1 p' hp'd hf' (r ++ t)
        rw [← List.append_assoc, ← ht] at this
        rw [this]
        exact hg
      rw [set_get_same s _ _ hsame]
      exact hi.1 p' hp'd hf' r
    · have hp'd : p' ∈ done := by
        rcases List.mem_cons.mp hp' with rfl | h
        · exact absurd (List.prefix_append _ _) h1
        · exact h
      rw [get_set_diverge s _ _ _ h1 h2]
      exact hi.1 p' hp'd hf' r
  · intro q hq
    rcases prefix_trichotomy (Split p) q with h | ⟨t, htne, ht⟩ | ⟨h1, h2⟩
    · exact Or.inl ⟨p, List.mem_cons_self _ _, hf, h⟩
    · have hqne : q ≠ [] := by
        rintro rfl
        rw [get_nil] at hq
        simp at hq
      refine Or.inr ⟨?_, p, List.mem_cons_self _ _, hf, ⟨t, ht.symm⟩⟩
      have hnf' := hnf
      rw [ht] at hnf' ⊢
      rw [get_set_above s q t _ hqne htne hnf']
      rfl
    · rw [get_set_diverge s _ _ _ h1 h2] at hq ⊢
      rcases hi.2 q hq with ⟨p0, hp0, hf0, hpre⟩ | ⟨hm, p0, hp0, hf0, hpre⟩
      · exact Or.inl ⟨p0, List.mem_cons_of_mem _ hp0, hf0, hpre⟩
      · exact Or.inr ⟨hm, p0, List.mem_cons_of_mem _ hp0, hf0, hpre⟩

theorem FilterInv_skip (m s : CMap) (done : List String) (p : String)
    (hi : FilterInv m done s) (hf : (get m (Split p)).2 = false) :
    FilterInv m (p :: done) s := by
  constructor
  · intro p' hp' hf' r
    rcases List.mem_cons.mp hp' with rfl | h
    · rw [hf] at hf'; cases hf'
    · exact hi.1 p' h hf' r
  · intro q hq
    rcases hi.2 q hq with ⟨p0, hp0, hf0, hpre⟩ | ⟨hm, p0, hp0, hf0, hpre⟩
    · exact Or.inl ⟨p0, List.mem_cons_of_mem _ hp0, hf0, hpre⟩
    · exact Or.inr ⟨hm, p0, List.mem_cons_of_mem _ hp0, hf0, hpre⟩

theorem filterStep_found (m s : CMap) (p : String) (hf : (get m (Split p)).2 = true) :
    filterStep m s p = set s (Split p) (get m (Split p)).1 := by
  simp [filterStep, hf]

theorem filterStep_not_found (m s : CMap) (p : String) (hf : (get m (Split p)).2 = false) :
    filterStep m s p = ⟨s, false⟩ := by
  simp [filterStep, hf]

theorem FilterInv_step (m s : CMap) (done : List String) (p : String)
    (hi : FilterInv m done s) :
    (filterStep m s p).fault = false ∧ FilterInv m (p :: done) (filterStep m s p).m := by
  cases hf : (get m (Split p)).2 with
  | false =>
    rw [filterStep_not_found m s p hf]
    exact ⟨rfl, FilterInv_skip m s done p hi hf⟩
  | true =>
    rw [filterStep_found m s p hf]
    exact ⟨FilterInv_no_fault m s done p hi hf, FilterInv_set m s done p hi hf⟩

theorem FilterInv_loop (m : CMap) (paths : List String) (s : CMap) (done : List String)
    (hi : FilterInv m done s) :
    (filterLoop m s paths).fault = false ∧
      FilterInv m (paths.reverse ++ done) (filterLoop m s paths).m := by
  induction paths generalizing s done with
  | nil => exact ⟨rfl, by simpa using hi⟩
  | cons p rest ih =>
    obtain ⟨h1, h2⟩ := FilterInv_step m s done p hi
    have hstep : filterLoop m s (p :: rest) = filterLoop m (filterStep m s p).m rest := by
      simp [filterLoop, h1]
    rw [hstep]
    obtain ⟨h3, h4⟩ := ih (filterStep m s p).m (p :: done) h2
    refine ⟨h3, ?_⟩
    simpa using h4

theorem FilterInv_filter (m : CMap) (paths : List String) :
    (filter m paths).fault = false ∧ FilterInv m paths (filter m paths).m := by
  obtain ⟨h1, h2⟩ := FilterInv_loop m paths [] [] (FilterInv_empty m)
  refine ⟨h1, FilterInv_mono m _ _ _ (fun p => ?_) h2⟩
  simp

/-! ## Equality of maps up to the order of their keys -/

theorem sizeOf_lookup (m : CMap) (k : String) (v : Value) (h : lookup m k = some v) :
    sizeOf v < sizeOf m := by
  induction m with
  | nil => simp [lookup] at h
  | cons e rest ih =>
    obtain ⟨k', w⟩ := e
    by_cases hk : k' = k
    · simp [lookup, hk] at h
      subst h
      simp
      omega
    · simp [lookup, hk] at h
      have := ih h
      simp
      omega

theorem DeepEqual_leaf (v : Value) (h : v.isMap = false) : DeepEqual v v := by
  cases v with
  | nil => exact DeepEqual.nil
  | int n => exact DeepEqual.int n
  | str s => exact DeepEqual.str s
  | bool b => exact DeepEqual.bool b
  | map sub => simp [Value.isMap] at h

theorem DeepEqual_of_SamePaths_aux (n : Nat) :
    ∀ m1 m2 : CMap, sizeOf m1 ≤ n → SamePaths m1 m2 →
      DeepEqual (Value.map m1) (Value.map m2) := by
  induction n with
  | zero =>
    intro m1 m2 hs _
    cases m1 with
    | nil => simp at hs
    | cons e rest => simp at hs
  | succ n ih =>
    intro m1 m2 hs hp
    refine DeepEqual.map m1 m2 (fun k => ?_) (fun k v1 v2 h1 h2 => ?_)
    · have := (hp [k]).1
      rw [get_one, get_one] at this
      cases h1 : lookup m1 k <;> cases h2 : lookup m2 k <;> simp [h1, h2] at this ⊢
    · have hk := hp [k]
      rw [get_one, get_one, h1, h2] at hk
      simp only at hk
      cases hv : v1.isMap with
      | false =>
        rw [← hk.2.2 hv]
        exact DeepEqual_leaf v1 hv
      | true =>
        have hv2 : v2.isMap = true := by rw [← hk.2.1]; exact hv
        cases v1 with
        | map s1 =>
          cases v2 with
          | map s2 =>
            apply ih s1 s2
            · have := sizeOf_lookup m1 k _ h1
              simp at this
              omega
            · intro q
              cases q with
              | nil => simp [get_nil]
              | cons a b =>
                have := hp (k :: a :: b)
                rw [get_cons2_map m1 s1 k a b h1, get_cons2_map m2 s2 k a b h2] at this
                exact this
          | _ => simp [Value.isMap] at hv2
        | _ => simp [Value.isMap] at hv

theorem DeepEqual_isMap (v w : Value) (h : DeepEqual v w) :
    v.isMap = w.isMap ∧ (v.isMap = false → v = w) := by
  cases h <;> simp [Value.isMap]

/-- Maps that are equal up to the order of keys read alike along every path. -/
theorem SamePaths_of_DeepEqual (m1 m2 : CMap)
    (h : DeepEqual (Value.map m1) (Value.map m2)) : SamePaths m1 m2 := by
  intro q
  induction q generalizing m1 m2 with
  | nil => simp [get_nil]
  | cons k rest ih =>
    cases h with
    | map _ _ keys vals =>
      cases h1 : lookup m1 k with
      | none =>
        have h2 : lookup m2 k = none := by
          have := keys k
          rw [h1] at this
          cases hl : lookup m2 k with
          | none => rfl
          | some w => rw [hl] at this; simp at this
        rw [get_cons_of_lookup_none m1 k rest h1, get_cons_of_lookup_none m2 k rest h2]
        simp
      | some v1 =>
        obtain ⟨v2, h2⟩ : ∃ v2, lookup m2 k = some v2 := by
          have := keys k
          rw [h1] at this
          cases hl : lookup m2 k with
          | none => rw [hl] at this; simp at this
          | some w => exact ⟨w, rfl⟩
        have hd := vals k v1 v2 h1 h2
        rw [get_cons_of_lookup m1 k rest v1 h1, get_cons_of_lookup m2 k rest v2 h2]
        cases rest with
        | nil => exact ⟨rfl, DeepEqual_isMap v1 v2 hd⟩
        | cons a b =>
          cases hv : v1.isMap with
          | false =>
            have := (DeepEqual_isMap v1 v2 hd).2 hv
            subst this
            exact ⟨rfl, rfl, fun _ => rfl⟩
          | true =>
            cases hd with
            | map s1 s2 ks vs =>
              rw [getV_map s1 (a :: b) (by simp), getV_map s2 (a :: b) (by simp)]
              exact ih s1 s2 (DeepEqual.map s1 s2 ks vs)
            | _ => simp [Value.isMap] at hv

/-- Maps that read alike along every path are equal up to the order of keys. -/
theorem DeepEqual_of_SamePaths (m1 m2 : CMap) (h : SamePaths m1 m2) :
    DeepEqual (Value.map m1) (Value.map m2) :=
  DeepEqual_of_SamePaths_aux (sizeOf m1) m1 m2 (le_refl _) h

/-! ## Two destinations built from the same paths -/

theorem FilterInv_found_transfer (m s s' : CMap) (d : List String)
    (hi : FilterInv m d s) (hi' : FilterInv m d s') (q : List String)
    (hq : (get s q).2 = true) : (get s' q).2 = true := by
  rcases hi.2 q hq with ⟨p, hp, hf, ⟨r, hr⟩⟩ | ⟨-, p, hp, hf, ⟨t, ht⟩⟩
  · have h1 := hi.1 p hp hf r
    have h2 := hi'.1 p hp hf r
    rw [hr] at h1 h2
    rw [h2, ← h1]
    exact hq
  · have hqne : q ≠ [] := by
      rintro rfl
      rw [get_nil] at hq
      simp at hq
    have h2 := hi'.1 p hp hf []
    rw [List.append_nil, ← ht] at h2
    exact (get_prefix_found s' q t hqne (by rw [h2, ht]; exact hf)).1

theorem FilterInv_agree (m s s' : CMap) (d : List String)
    (hi : FilterInv m d s) (hi' : FilterInv m d s') : SamePaths s s' := by
  intro q
  cases hq : (get s q).2 with
  | false =>
    have hq' : (get s' q).2 = false := by
      cases h : (get s' q).2 with
      | false => rfl
      | true =>
        have := FilterInv_found_transfer m s' s d hi' hi q h
        rw [hq] at this
        cases this
    rw [get_not_found s q hq, get_not_found s' q hq']
    simp
  | true =>
    have hq' := FilterInv_found_transfer m s s' d hi hi' q hq
    refine ⟨hq'.symm, ?_⟩
    rcases hi.2 q hq with ⟨p, hp, hf, ⟨r, hr⟩⟩ | ⟨hm, -⟩
    · have h1 := hi.1 p hp hf r
      have h2 := hi'.1 p hp hf r
      rw [hr] at h1 h2
      rw [h1, h2]
      exact ⟨rfl, fun _ => rfl⟩
    · rcases hi'.2 q hq' with ⟨p, hp, hf, ⟨r, hr⟩⟩ | ⟨hm', -⟩
      · have h1 := hi.1 p hp hf r
        have h2 := hi'.1 p hp hf r
        rw [hr] at h1 h2
        rw [h1, h2]
        exact ⟨rfl, fun _ => rfl⟩
      · rw [hm, hm']
        exact ⟨rfl, fun h => by cases h⟩

theorem filterLoop_skip (m : CMap) (paths : List String) (s : CMap) :
    filterLoop m s paths = filterLoop m s (paths.filter (fun p => (get m (Split p)).2)) := by
  induction paths generalizing s with
  | nil => rfl
  | cons p rest ih =>
    cases hf : (get m (Split p)).2 with
    | false =>
      rw [List.filter_cons_of_neg (by simp [hf])]
      rw [← ih s]
      simp [filterLoop, filterStep_not_found m s p hf]
    | true =>
      rw [List.filter_cons_of_pos (by simp [hf])]
      simp only [filterLoop]
      cases hfa : (filterStep m s p).fault with
      | true => simp
      | false =>
        simp
        exact ih _

/-! ## Path strings of two segments -/

theorem splitDot_no_dot (cs : List Char) (h : '.' ∉ cs) : splitDot cs = [cs] := by
  induction cs with
  | nil => rfl
  | cons c cs ih =>
    have hc : c ≠ '.' := fun e => h (by simp [e])
    have hcs : '.' ∉ cs := fun e => h (List.mem_cons_of_mem _ e)
    simp [splitDot, hc, ih hcs]

theorem splitDot_append_dot (a b : List Char) (h : '.' ∉ a) :
    splitDot (a ++ '.' :: b) = a :: splitDot b := by
  induction a with
  | nil => simp [splitDot]
  | cons c cs ih =>
    have hc : c ≠ '.' := fun e => h (by simp [e])
    have hcs : '.' ∉ cs := fun e => h (List.mem_cons_of_mem _ e)
    simp [splitDot, hc, ih hcs]

theorem Split_two (a b : String) (ha : '.' ∉ a.data) (hb : '.' ∉ b.data) :
    Split (a ++ "." ++ b) = [a, b] := by
  have hd : (a ++ "." ++ b).data = a.data ++ '.' :: b.data := by
    simp [String.data_append]
  simp [Split, hd, splitDot_append_dot _ _ ha, splitDot_no_dot _ hb]

/-! ## The properties of `get` and `set` -/

/-- C1: when the descent from the root of `m` along the keys `ks` passes through
nested maps only and reaches the map `m'`, and `m'` binds the last key `kn` to
`v`, the read `get m (ks ++ [kn])` returns `(v, true)`: the value stored under
`kn` in the map reached, leaf or nested map alike. -/
theorem get_present (m : CMap) (ks : List String) (kn : String) (m' : CMap) (v : Value)
    (hd : descend m ks = some m') (hk : lookup m' kn = some v) :
    get m (ks ++ [kn]) = (v, true) := by
  rw [get_of_descend m ks kn m' hd, get_one, hk]

theorem get_present_witness :
    descend makeExample ["3", "1", "1"] = some [("1", Value.str "value")] ∧
    lookup [("1", Value.str "value")] "1" = some (Value.str "value") ∧
    get makeExample (["3", "1", "1"] ++ ["1"]) = (Value.str "value", true) ∧
    (Init makeExample).Get "3.1.1.1" = (Value.str "value", true) ∧
    (Init makeExample).Get "1.1" = (Value.int 11, true) :=
  ⟨rfl, rfl, get_present makeExample ["3", "1", "1"] "1" [("1", Value.str "value")]
    (Value.str "value") rfl rfl, rfl, rfl⟩

/-- C2: when the descent along `pre` reaches a map `m'` in which the next
segment `k` is missing, or in which `k` is present with a value that is not a
map while further segments `post` follow, the read `get m (pre ++ k :: post)`
returns `(nil, false)`.  The read is a total function: it has no panic. -/
theorem get_absent (m : CMap) (pre : List String) (k : String) (post : List String)
    (m' : CMap) (hd : descend m pre = some m')
    (h : lookup m' k = none ∨ (post ≠ [] ∧ ∃ v, lookup m' k = some v ∧ v.isMap = false)) :
    get m (pre ++ k :: post) = (Value.nil, false) :=
  get_blocked m pre k post m' hd h

theorem get_absent_witness :
    (descend makeExample ["3", "1"] = some [("1", Value.map [("1", Value.str "value")])] ∧
      get makeExample (["3", "1"] ++ "2" :: []) = (Value.nil, false)) ∧
    (descend makeExample ["1"] = some [("1", Value.int 11), ("2", Value.int 12)] ∧
      get makeExample (["1"] ++ "1" :: ["x"]) = (Value.nil, false)) ∧
    (Init makeExample).Get "4" = (Value.nil, false) ∧
    (Init makeExample).Get "3.1.2" = (Value.nil, false) :=
  ⟨⟨rfl, get_absent makeExample ["3", "1"] "2" [] _ rfl (Or.inl rfl)⟩,
   ⟨rfl, get_absent makeExample ["1"] "1" ["x"] _ rfl
      (Or.inr ⟨by simp, Value.int 11, rfl, rfl⟩)⟩, rfl, rfl⟩

/-- C3, as the code has it: a write `set m p v` along a non-empty path that does
not panic is read back by `get` at the same path as `(v, true)`. -/
theorem set_get_roundtrip (m : CMap) (p : List String) (v : Value) (hp : p ≠ [])
    (hf : (set m p v).fault = false) : get (set m p v).m p = (v, true) := by
  have h := get_set_below m p [] v hp hf
  rw [List.append_nil] at h
  exact h

theorem set_get_roundtrip_witness :
    (set makeExample (Split "1.3") (Value.int 13)).fault = false ∧
    get (set makeExample (Split "1.3") (Value.int 13)).m (Split "1.3") = (Value.int 13, true) :=
  ⟨rfl, set_get_roundtrip makeExample (Split "1.3") (Value.int 13) (Split_ne_nil "1.3") rfl⟩

/-- C3 fails as stated: on the example map the path "1.1.1" is not empty, the
write panics at the leaf 11 held by "1.1", and a read of the same path does not
return the value. -/
theorem set_get_roundtrip_counterexample :
    ["1", "1", "1"] ≠ ([] : List String) ∧
    (set makeExample ["1", "1", "1"] (Value.int 0)).fault = true ∧
    get (set makeExample ["1", "1", "1"] (Value.int 0)).m ["1", "1", "1"]
      ≠ (Value.int 0, true) := by
  refine ⟨by simp, rfl, fun h => ?_⟩
  have h2 : (get (set makeExample ["1", "1", "1"] (Value.int 0)).m ["1", "1", "1"]).2 = true := by
    rw [h]
  exact absurd h2 (by decide)

/-! ## The properties of `filter` -/

/-- C5: for every record, every list of path strings `P` and every `p` in `P`
with `Get p = (v, true)` on the record, the filtered record holds the whole of
`v` at the same path, `Get p = (v, true)`, whatever else `P` lists before or
after `p`. -/
theorem filter_keeps (r : Record) (P : List String) (p : String) (v : Value)
    (hp : p ∈ P) (hg : r.Get p = (v, true)) : (r.Filter P).1.Get p = (v, true) := by
  have hf : (get r.data (Split p)).2 = true := by
    have : get r.data (Split p) = (v, true) := hg
    rw [this]
  have h := (FilterInv_filter r.data P).2.1 p hp hf []
  rw [List.append_nil] at h
  show get (filter r.data P).m (Split p) = (v, true)
  rw [h]
  exact hg

theorem filter_keeps_witness :
    "3" ∈ ["1.2", "3"] ∧
    (Init makeExample).Get "3" =
      (Value.map [("1", Value.map [("1", Value.map [("1", Value.str "value")])])], true) ∧
    ((Init makeExample).Filter ["1.2", "3"]).1.Get "3" =
      (Value.map [("1", Value.map [("1", Value.map [("1", Value.str "value")])])], true) ∧
    ((Init makeExample).Filter ["1.2", "3"]).1.Get "1.2" = (Value.int 12, true) :=
  ⟨by simp, rfl, filter_keeps (Init makeExample) ["1.2", "3"] "3" _ (by simp) rfl, rfl⟩

/-- C6: a list of segments `q` that resolves in `filter m P` is a prefix of, or
has as a prefix, the segments of some path string of `P` that resolves in `m`. -/
theorem filter_only (m : CMap) (P : List String) (q : List String)
    (hq : (get (filter m P).m q).2 = true) :
    ∃ p ∈ P, (get m (Split p)).2 = true ∧ (q <+: Split p ∨ Split p <+: q) := by
  rcases (FilterInv_filter m P).2.2 q hq with ⟨p, hp, hf, hpre⟩ | ⟨-, p, hp, hf, hpre⟩
  · exact ⟨p, hp, hf, Or.inr hpre⟩
  · exact ⟨p, hp, hf, Or.inl hpre⟩

theorem filter_only_witness :
    (get (filter makeExample ["1.2", "3"]).m ["1"]).2 = true ∧
    ∃ p ∈ ["1.2", "3"], (get makeExample (Split p)).2 = true ∧
      (["1"] <+: Split p ∨ Split p <+: ["1"]) :=
  ⟨rfl, filter_only makeExample ["1.2", "3"] ["1"] rfl⟩

/-- C7: `filter` never panics: for every map and every list of path strings,
each write it makes into its destination ends without the type-assertion panic,
so the run reaches its end and returns the destination. -/
theorem filter_no_fault (m : CMap) (P : List String) : (filter m P).fault = false :=
  (FilterInv_filter m P).1

/-- C8: `filter` skips the path strings that do not resolve in the source: the
result on `P` is the result on `P` without the paths for which `Get` reports
not-found, so nothing is put into the destination for a skipped path. -/
theorem filter_skips (m : CMap) (P : List String) :
    filter m P = filter m (P.filter (fun p => ((Init m).Get p).2)) :=
  filterLoop_skip m P []

theorem filter_skips_witness :
    filter makeExample ["1.2", "3", "4.1.2.3"] = filter makeExample ["1.2", "3"] ∧
    (filter makeExample ["1.2", "3"]).m = subexample :=
  ⟨(filter_skips makeExample ["1.2", "3", "4.1.2.3"]).trans rfl, rfl⟩

/-- C9: for keys `a`, `b`, `c` without a ".", `b` different from `c`, such that
the paths `a.b` and `a.c` resolve in `m` to `vb` and `vc`: `filter` on the two
paths returns the map with the single key `a`, bound to the map with exactly the
keys `b` and `c`, bound to `vb` and `vc`. -/
theorem filter_siblings (m : CMap) (a b c : String) (vb vc : Value)
    (ha : '.' ∉ a.data) (hb : '.' ∉ b.data) (hc : '.' ∉ c.data) (hbc : b ≠ c)
    (h1 : (Init m).Get (a ++ "." ++ b) = (vb, true))
    (h2 : (Init m).Get (a ++ "." ++ c) = (vc, true)) :
    filter m [a ++ "." ++ b, a ++ "." ++ c] =
      ⟨[(a, Value.map [(b, vb), (c, vc)])], false⟩ := by
  have e1 : get m (Split (a ++ "." ++ b)) = (vb, true) := h1
  have e2 : get m (Split (a ++ "." ++ c)) = (vc, true) := h2
  have s1 : filterStep m [] (a ++ "." ++ b) = ⟨[(a, Value.map [(b, vb)])], false⟩ := by
    rw [filterStep_found m [] _ (by rw [e1]), e1, Split_two a b ha hb]
    rw [set_cons2_none [] a b [] vb rfl]
    simp [set_one, GoRecord.insert]
  have s2 : filterStep m [(a, Value.map [(b, vb)])] (a ++ "." ++ c) =
      ⟨[(a, Value.map [(b, vb), (c, vc)])], false⟩ := by
    rw [filterStep_found m _ _ (by rw [e2]), e2, Split_two a c ha hc]
    rw [set_cons2_map _ [(b, vb)] a c [] vc (by simp [lookup])]
    simp [set_one, GoRecord.insert, hbc]
  simp [filter, filterLoop, s1, s2]

theorem filter_siblings_witness :
    filter makeExample ["1" ++ "." ++ "1", "1" ++ "." ++ "2"] =
      ⟨[("1", Value.map [("1", Value.int 11), ("2", Value.int 12)])], false⟩ :=
  filter_siblings makeExample "1" "1" "2" (Value.int 11) (Value.int 12)
    (by decide) (by decide) (by decide) (by decide) rfl rfl

/-- C10: the order of the path strings does not change what `filter` returns:
for two lists that are permutations of each other the two results are equal as
maps, that is, up to the order in which a map lists its keys. -/
theorem filter_perm (m : CMap) (P P' : List String) (h : P.Perm P') :
    DeepEqual (Value.map (filter m P).m) (Value.map (filter m P').m) := by
  apply DeepEqual_of_SamePaths
  have h1 := (FilterInv_filter m P).2
  have h2 := (FilterInv_filter m P').2
  exact FilterInv_agree m _ _ P h1 (FilterInv_mono m _ P' P (fun p => h.mem_iff.symm) h2)

theorem filter_perm_witness :
    List.Perm ["1", "1.2", "3"] ["3", "1.2", "1"] ∧
    DeepEqual (Value.map (filter makeExample ["1", "1.2", "3"]).m)
      (Value.map (filter makeExample ["3", "1.2", "1"]).m) :=
  ⟨by decide, filter_perm makeExample _ _ (by decide)⟩

/-! ## Empty paths -/

theorem Split_empty : Split "" = [""] := rfl

theorem set_empty_chain (k : String) (ks : List String) (x : Value) :
    set [] (k :: ks) x = ⟨[(k, chain ks x)], false⟩ := by
  induction ks generalizing k with
  | nil => rfl
  | cons k2 r ih =>
    rw [set_cons2_none [] k k2 r x rfl, ih k2]
    simp [GoRecord.insert, chain]

/-- C13, as the code has it: `strings.Split` turns the empty string into one
empty segment, so `Get ""` reads the top-level key "": on a record whose map
has no such key it returns `(nil, false)`. -/
theorem Get_empty_string (r : Record) (h : lookup r.data "" = none) :
    r.Get "" = (Value.nil, false) := by
  show get r.data (Split "") = _
  rw [Split_empty, get_one, h]

theorem Get_empty_string_witness :
    lookup (Init makeExample).data "" = none ∧
    (Init makeExample).Get "" = (Value.nil, false) :=
  ⟨rfl, Get_empty_string (Init makeExample) rfl⟩

/-- C13 fails as stated: on the map `{"": 1}` the call `Get ""` finds the
value 1. -/
theorem Get_empty_string_counterexample :
    (Init [("", Value.int 1)]).Get "" = (Value.int 1, true) := rfl

/-- C16: `get` on a path of zero segments returns `(nil, false)`, whatever the
map holds. -/
theorem get_no_segments (m : CMap) : get m [] = (Value.nil, false) := rfl

theorem get_no_segments_witness : get makeExample [] = (Value.nil, false) :=
  get_no_segments makeExample

/-- C17: `set` on a path of zero segments does not panic and leaves the map as
it was. -/
theorem set_no_segments (m : CMap) (x : Value) :
    (set m [] x).fault = false ∧ (set m [] x).m = m := ⟨rfl, rfl⟩

theorem set_no_segments_witness :
    (set makeExample [] (Value.bool false)).m = makeExample :=
  (set_no_segments makeExample (Value.bool false)).2

/-! ## The result of `filter` inside its source -/

theorem map_asMap (v : Value) (h : v.isMap = true) : v = Value.map (asMap v) := by
  cases v with
  | map sub => rfl
  | _ => simp [Value.isMap] at h

theorem getV_one_snd (v : Value) (k : String) :
    (getV v [k]).2 = (lookup (asMap v) k).isSome := by
  cases v with
  | map sub =>
    show (get sub [k]).2 = (lookup sub k).isSome
    rw [get_one]
    cases lookup sub k <;> rfl
  | _ => rfl

/-- The keys of a map found at a path are the one-segment extensions of the
path that are present. -/
theorem get_snoc_of_found (s : CMap) (q : List String) (k : String)
    (hq : (get s q).2 = true) :
    (get s (q ++ [k])).2 = (lookup (asMap (get s q).1) k).isSome := by
  rw [get_append_found s q [k] _ (pair_eta_true _ hq)]
  exact getV_one_snd _ k

theorem FilterInv_sub (m s : CMap) (d : List String) (hi : FilterInv m d s)
    (q : List String) (hq : (get s q).2 = true) :
    (get m q).2 = true ∧ ((get s q).1.isMap = false → get m q = get s q) ∧
      ((get s q).1.isMap = true → (get m q).1.isMap = true) := by
  rcases hi.2 q hq with ⟨p, hp, hf, ⟨r, hr⟩⟩ | ⟨hm, p, hp, hf, ⟨t, ht⟩⟩
  · have h1 := hi.1 p hp hf r
    rw [hr] at h1
    rw [← h1]
    exact ⟨hq, fun _ => rfl, fun h => h⟩
  · have hqne : q ≠ [] := by
      rintro rfl
      rw [get_nil] at hq
      simp at hq
    rw [← ht] at hf
    have hpre := get_prefix_found m q t hqne hf
    refine ⟨hpre.1, fun h => ?_, fun _ => ?_⟩
    · rw [hm] at h
      cases h
    · by_cases htne : t = []
      · subst htne
        have h1 := hi.1 p hp (by rw [← ht]; exact hf) []
        rw [← ht] at h1
        simp only [List.append_nil] at h1
        rw [← h1]
        exact hm
      · exact hpre.2 htne

theorem filter_get_eq (m : CMap) (P : List String) (p : String) (hp : p ∈ P) :
    get (filter m P).m (Split p) = get m (Split p) := by
  have hi := (FilterInv_filter m P).2
  cases hf : (get m (Split p)).2 with
  | true =>
    have h := hi.1 p hp hf []
    rw [List.append_nil] at h
    exact h
  | false =>
    have hF : (get (filter m P).m (Split p)).2 = false := by
      cases h : (get (filter m P).m (Split p)).2 with
      | false => rfl
      | true =>
        have := (FilterInv_sub m _ P hi (Split p) h).1
        rw [hf] at this
        cases this
    rw [get_not_found _ _ hF, get_not_found _ _ hf]

theorem filterLoop_congr (m1 m2 : CMap) (paths : List String) (s : CMap)
    (h : ∀ p ∈ paths, get m1 (Split p) = get m2 (Split p)) :
    filterLoop m1 s paths = filterLoop m2 s paths := by
  induction paths generalizing s with
  | nil => rfl
  | cons p rest ih =>
    have hs : filterStep m1 s p = filterStep m2 s p := by
      simp [filterStep, h p (List.mem_cons_self _ _)]
    simp only [filterLoop, hs]
    cases (filterStep m2 s p).fault with
    | true => rfl
    | false => exact ih _ (fun p' hp' => h p' (List.mem_cons_of_mem _ hp'))

/-- C19: the result of `filter` lies inside its source: a list of segments `q`
that resolves in `filter m P` resolves in `m`; when the result holds a leaf at
`q`, `m` holds the same leaf there; when it holds a map, `m` holds a map at `q`
that has every key of the map of the result. -/
theorem filter_sub (m : CMap) (P : List String) (q : List String)
    (hq : (get (filter m P).m q).2 = true) :
    (get m q).2 = true ∧
    ((get (filter m P).m q).1.isMap = false → get m q = get (filter m P).m q) ∧
    ((get (filter m P).m q).1.isMap = true →
      (get m q).1.isMap = true ∧
      ∀ k, (lookup (asMap (get (filter m P).m q).1) k).isSome = true →
        (lookup (asMap (get m q).1) k).isSome = true) := by
  have hi := (FilterInv_filter m P).2
  obtain ⟨h1, h2, h3⟩ := FilterInv_sub m _ P hi q hq
  refine ⟨h1, h2, fun hm => ⟨h3 hm, fun k hk => ?_⟩⟩
  rw [← get_snoc_of_found _ q k hq] at hk
  rw [← get_snoc_of_found m q k h1]
  exact (FilterInv_sub m _ P hi (q ++ [k]) hk).1

theorem filter_sub_witness :
    (get (filter makeExample ["1.2", "3"]).m ["1"]).2 = true ∧
    (get makeExample ["1"]).2 = true ∧
    (get (filter makeExample ["1.2", "3"]).m ["1"]).1 = Value.map [("2", Value.int 12)] ∧
    (lookup (asMap (get makeExample ["1"]).1) "2").isSome = true :=
  ⟨rfl, (filter_sub makeExample ["1.2", "3"] ["1"] rfl).1, rfl,
   ((filter_sub makeExample ["1.2", "3"] ["1"] rfl).2.2 rfl).2 "2" rfl⟩

/-- C11: filtering a second time by the same paths changes nothing:
`filter (filter m P) P` is `filter m P`. -/
theorem filter_idem (m : CMap) (P : List String) :
    filter (filter m P).m P = filter m P :=
  filterLoop_congr _ _ P [] (fun p hp => filter_get_eq m P p hp)

theorem filter_idem_witness :
    filter (filter makeExample ["1.2", "3", "4.1.2.3"]).m ["1.2", "3", "4.1.2.3"]
      = ⟨subexample, false⟩ :=
  (filter_idem makeExample ["1.2", "3", "4.1.2.3"]).trans rfl

/-! ## A parent path and the paths of its children -/

theorem mem_keys_iff (m : CMap) (k : String) : k ∈ keys m ↔ (lookup m k).isSome = true := by
  induction m with
  | nil => simp [keys, lookup]
  | cons e rest ih =>
    obtain ⟨k', v⟩ := e
    by_cases h : k' = k
    · simp [keys, lookup, h]
    · have ih' : k ∈ List.map Prod.fst rest ↔ (lookup rest k).isSome = true := ih
      simp only [keys, List.map_cons, List.mem_cons, lookup, h, if_false]
      rw [ih']
      constructor
      · rintro (h1 | h1)
        · exact absurd h1.symm h
        · exact h1
      · exact Or.inr

theorem splitDot_append_dot_any (a b : List Char) :
    splitDot (a ++ '.' :: b) = splitDot a ++ splitDot b := by
  induction a with
  | nil => simp [splitDot]
  | cons c cs ih =>
    by_cases hc : c = '.'
    · simp [splitDot, hc, ih]
    · cases hs : splitDot cs with
      | nil => exact absurd hs (splitDot_ne_nil cs)
      | cons seg segs => simp [splitDot, hc, ih, hs]

theorem Split_snoc (p k : String) (hk : '.' ∉ k.data) :
    Split (p ++ "." ++ k) = Split p ++ [k] := by
  have hd : (p ++ "." ++ k).data = p.data ++ '.' :: k.data := by
    simp [String.data_append]
  simp [Split, hd, splitDot_append_dot_any, splitDot_no_dot _ hk]

theorem agree_of_eq (a b : CMap) (q : List String) (h : get a q = get b q) :
    (get a q).2 = (get b q).2 ∧ (get a q).1.isMap = (get b q).1.isMap ∧
      ((get a q).1.isMap = false → (get a q).1 = (get b q).1) := by
  rw [h]
  exact ⟨rfl, rfl, fun _ => rfl⟩

theorem agree_of_not_found (a b : CMap) (q : List String)
    (ha : (get a q).2 = false) (hb : (get b q).2 = false) :
    (get a q).2 = (get b q).2 ∧ (get a q).1.isMap = (get b q).1.isMap ∧
      ((get a q).1.isMap = false → (get a q).1 = (get b q).1) :=
  agree_of_eq a b q (by rw [get_not_found a q ha, get_not_found b q hb])

theorem agree_of_maps (a b : CMap) (q : List String)
    (ha : (get a q).2 = true ∧ (get a q).1.isMap = true)
    (hb : (get b q).2 = true ∧ (get b q).1.isMap = true) :
    (get a q).2 = (get b q).2 ∧ (get a q).1.isMap = (get b q).1.isMap ∧
      ((get a q).1.isMap = false → (get a q).1 = (get b q).1) := by
  refine ⟨by rw [ha.1, hb.1], by rw [ha.2, hb.2], fun h => ?_⟩
  rw [ha.2] at h
  cases h

theorem not_found_of_not (a : CMap) (q : List String) (h : ¬ (get a q).2 = true) :
    (get a q).2 = false := by
  cases hq : (get a q).2 with
  | false => rfl
  | true => exact absurd hq h

theorem parent_children_SamePaths (m : CMap) (p : String) (sub : CMap) (K : List String)
    (hp : get m (Split p) = (Value.map sub, true))
    (hK : ∀ k, k ∈ K ↔ (lookup sub k).isSome = true) (hne : K ≠ [])
    (hdot : ∀ k ∈ K, '.' ∉ k.data) :
    SamePaths (filter m [p]).m (filter m (K.map (fun k => p ++ "." ++ k))).m := by
  have hi1 := (FilterInv_filter m [p]).2
  have hi2 := (FilterInv_filter m (K.map (fun k => p ++ "." ++ k))).2
  generalize (filter m [p]).m = F1 at hi1 ⊢
  generalize (filter m (K.map (fun k => p ++ "." ++ k))).m = F2 at hi2 ⊢
  have hpf : (get m (Split p)).2 = true := by rw [hp]
  have hps := Split_ne_nil p
  have A1 : ∀ r, get F1 (Split p ++ r) = get m (Split p ++ r) :=
    hi1.1 p (by simp) hpf
  have hchild : ∀ k ∈ K, (get m (Split p ++ [k])).2 = true := by
    intro k hk
    rw [get_snoc_of_found m _ k hpf, hp]
    exact (hK k).mp hk
  have B1 : ∀ k ∈ K, ∀ r, get F2 (Split p ++ [k] ++ r) = get m (Split p ++ [k] ++ r) := by
    intro k hk r
    have h := hi2.1 (p ++ "." ++ k) (List.mem_map.mpr ⟨k, hk, rfl⟩)
      (by rw [Split_snoc p k (hdot k hk)]; exact hchild k hk) r
    rw [Split_snoc p k (hdot k hk)] at h
    exact h
  have B2 : ∀ q, (get F2 q).2 = true → ∃ k ∈ K, Split p ++ [k] <+: q ∨ q <+: Split p ++ [k] := by
    intro q hq
    rcases hi2.2 q hq with ⟨p', hp', -, hpre⟩ | ⟨-, p', hp', -, hpre⟩
    · obtain ⟨k, hk, rfl⟩ := List.mem_map.mp hp'
      rw [Split_snoc p k (hdot k hk)] at hpre
      exact ⟨k, hk, Or.inl hpre⟩
    · obtain ⟨k, hk, rfl⟩ := List.mem_map.mp hp'
      rw [Split_snoc p k (hdot k hk)] at hpre
      exact ⟨k, hk, Or.inr hpre⟩
  obtain ⟨k0, hk0⟩ := List.exists_mem_of_ne_nil K hne
  have hF1ps : (get F1 (Split p)).2 = true := by
    have h := A1 []
    rw [List.append_nil] at h
    rw [h]
    exact hpf
  have hF2child : (get F2 (Split p ++ [k0])).2 = true := by
    have h := B1 k0 hk0 []
    rw [List.append_nil] at h
    rw [h]
    exact hchild k0 hk0
  intro q
  rcases prefix_trichotomy (Split p) q with ⟨r, hr⟩ | ⟨t, htne, ht⟩ | ⟨h1, h2⟩
  · subst hr
    cases r with
    | nil =>
      rw [List.append_nil]
      refine agree_of_maps F1 F2 _ ⟨hF1ps, ?_⟩ (get_prefix_found F2 (Split p) [k0] hps hF2child
        |>.imp_right (fun h => h (by simp)))
      have h := A1 []
      rw [List.append_nil] at h
      rw [h, hp]
      rfl
    | cons k' r' =>
      by_cases hk' : k' ∈ K
      · apply agree_of_eq
        have h := B1 k' hk' r'
        rw [List.append_assoc] at h
        rw [A1]
        exact h.symm
      · have hnone : lookup sub k' = none := by
          cases hl : lookup sub k' with
          | none => rfl
          | some w => exact absurd ((hK k').mpr (by rw [hl]; rfl)) hk'
        apply agree_of_not_found
        · rw [A1, get_append_found m _ (k' :: r') _ hp, getV_map _ _ (by simp),
            get_cons_of_lookup_none sub k' r' hnone]
        · apply not_found_of_not
          intro hq
          obtain ⟨k, hk, hpre | hpre⟩ := B2 _ hq
          · rw [List.prefix_append_right_inj] at hpre
            obtain ⟨t, ht⟩ := hpre
            simp at ht
            exact hk' (ht.1 ▸ hk)
          · rw [List.prefix_append_right_inj] at hpre
            obtain ⟨t, ht⟩ := hpre
            simp at ht
            exact hk' (ht.1 ▸ hk)
  · by_cases hq : q = []
    · subst hq
      exact agree_of_eq F1 F2 [] rfl
    · refine agree_of_maps F1 F2 q ?_ ?_
      · have h := get_prefix_found F1 q t hq (by rw [← ht]; exact hF1ps)
        exact ⟨h.1, h.2 htne⟩
      · have h := get_prefix_found F2 q (t ++ [k0]) hq
          (by rw [← List.append_assoc, ← ht]; exact hF2child)
        exact ⟨h.1, h.2 (by simp)⟩
  · apply agree_of_not_found
    · apply not_found_of_not
      intro hq
      rcases hi1.2 q hq with ⟨p', hp', -, hpre⟩ | ⟨-, p', hp', -, hpre⟩
      · rw [List.mem_singleton] at hp'
        subst hp'
        exact h1 hpre
      · rw [List.mem_singleton] at hp'
        subst hp'
        exact h2 hpre
    · apply not_found_of_not
      intro hq
      obtain ⟨k, -, hpre | hpre⟩ := B2 _ hq
      · exact h1 ((List.prefix_append _ _).trans hpre)
      · rcases List.prefix_concat_iff.mp hpre with h | h
        · exact h1 (h ▸ List.prefix_append _ _)
        · exact h2 h

/-- C12: filtering by a parent path is filtering by the paths of all its
children: when `p` resolves in `m` to a map `sub`, and `K` lists the keys of
`sub` (in any order), is not empty and has no key with a ".", `filter m [p]`
and `filter` on the paths `p.k` for `k` in `K` are equal as maps. -/
theorem filter_parent_children (m : CMap) (p : String) (sub : CMap) (K : List String)
    (hp : (Init m).Get p = (Value.map sub, true))
    (hK : ∀ k, k ∈ K ↔ k ∈ keys sub) (hne : K ≠ [])
    (hdot : ∀ k ∈ K, '.' ∉ k.data) :
    DeepEqual (Value.map (filter m [p]).m)
      (Value.map (filter m (K.map (fun k => p ++ "." ++ k))).m) :=
  DeepEqual_of_SamePaths _ _
    (parent_children_SamePaths m p sub K hp
      (fun k => (hK k).trans (mem_keys_iff sub k)) hne hdot)

theorem filter_parent_children_witness :
    (Init makeExample).Get "1" = (Value.map [("1", Value.int 11), ("2", Value.int 12)], true) ∧
    keys [("1", Value.int 11), ("2", Value.int 12)] = ["1", "2"] ∧
    DeepEqual (Value.map (filter makeExample ["1"]).m)
      (Value.map (filter makeExample ["1.1", "1.2"]).m) :=
  ⟨rfl, rfl, filter_parent_children makeExample "1" [("1", Value.int 11), ("2", Value.int 12)]
    ["1", "2"] rfl (fun _ => Iff.rfl) (by simp) (by decide)⟩

/-! ## Map objects: reading and writing one key -/

theorem find_put_self (o : Obj) (k : String) (x : RValue) :
    Obj.find (Obj.put o k x) k = some x := by
  induction o with
  | nil => simp [Obj.put, Obj.find]
  | cons e rest ih =>
    obtain ⟨k', v⟩ := e
    by_cases h : k' = k
    · simp [Obj.put, Obj.find, h]
    · simp [Obj.put, Obj.find, h, ih]

theorem find_put_ne (o : Obj) (k k2 : String) (x : RValue) (h : k ≠ k2) :
    Obj.find (Obj.put o k x) k2 = Obj.find o k2 := by
  induction o with
  | nil => simp [Obj.put, Obj.find, h]
  | cons e rest ih =>
    obtain ⟨k', v⟩ := e
    by_cases h1 : k' = k
    · subst h1
      simp [Obj.put, Obj.find, h]
    · simp [Obj.put, Obj.find, h1, ih]

theorem put_find_same (o : Obj) (k : String) (x : RValue) (h : Obj.find o k = some x) :
    Obj.put o k x = o := by
  induction o with
  | nil => simp [Obj.find] at h
  | cons e rest ih =>
    obtain ⟨k', v⟩ := e
    by_cases h1 : k' = k
    · simp [Obj.find, h1] at h
      simp [Obj.put, h1, h]
    · simp [Obj.find, h1] at h
      simp [Obj.put, h1, ih h]

theorem store_read_nil (h : Store) (k : String) : h.read none k = none := rfl

theorem store_read_some (h : Store) (a : Nat) (k : String) :
    h.read (some a) k = Obj.find (h.obj a) k := rfl

theorem store_write_nil (h : Store) (k : String) (x : RValue) : h.write none k x = none := rfl

theorem store_write_some (h : Store) (a : Nat) (k : String) (x : RValue) :
    h.write (some a) k x = some ⟨h.next, Function.update h.obj a (Obj.put (h.obj a) k x)⟩ := rfl

/-! ## Unfolding `get` and `set` on a store -/

theorem store_get_nil (h : Store) (m : Ref) : h.get m [] = (RValue.nil, false) := rfl

theorem store_get_one (h : Store) (m : Ref) (k : String) :
    h.get m [k] = match h.read m k with
      | some x => (x, true)
      | none => (RValue.nil, false) := rfl

theorem store_get_cons2 (h : Store) (m : Ref) (k k2 : String) (rest : List String) :
    h.get m (k :: k2 :: rest) = match h.read m k with
      | some (RValue.mapRef m2) => h.get m2 (k2 :: rest)
      | _ => (RValue.nil, false) := rfl

theorem store_set_nil (h : Store) (m : Ref) (x : RValue) : h.set m [] x = ⟨h, none⟩ := rfl

theorem store_set_one (h : Store) (m : Ref) (k : String) (x : RValue) :
    h.set m [k] x = match h.write m k x with
      | some h1 => ⟨h1, none⟩
      | none => ⟨h, some Panic.nilMapWrite⟩ := rfl

theorem store_set_cons2 (h : Store) (m : Ref) (k k2 : String) (rest : List String)
    (x : RValue) :
    h.set m (k :: k2 :: rest) x = match h.ensure m k with
      | none => ⟨h, some Panic.nilMapWrite⟩
      | some h1 =>
        match h1.read m k with
        | some (RValue.mapRef m2) => Store.set h1 m2 (k2 :: rest) x
        | _ => ⟨h1, some Panic.typeAssertion⟩ := rfl

theorem store_get_cons_of_none (h : Store) (m : Ref) (k : String) (r : List String)
    (hr : h.read m k = none) : h.get m (k :: r) = (RValue.nil, false) := by
  cases r with
  | nil => rw [store_get_one, hr]
  | cons a b => rw [store_get_cons2, hr]

theorem store_get_cons2_map (h : Store) (m m2 : Ref) (k k2 : String) (rest : List String)
    (hr : h.read m k = some (RValue.mapRef m2)) :
    h.get m (k :: k2 :: rest) = h.get m2 (k2 :: rest) := by
  rw [store_get_cons2, hr]

theorem store_get_cons2_leaf (h : Store) (m : Ref) (k k2 : String) (rest : List String)
    (v : RValue) (hr : h.read m k = some v) (hv : v.isMap = false) :
    h.get m (k :: k2 :: rest) = (RValue.nil, false) := by
  rw [store_get_cons2, hr]
  cases v with
  | mapRef r => simp [RValue.isMap] at hv
  | _ => rfl

/-- The store after the creation of a map under an absent key `k` of the map
object at `a`. -/
theorem store_ensure_absent (h : Store) (a : Nat) (k : String)
    (hr : h.read (some a) k = none) :
    h.ensure (some a) k = some ⟨h.next + 1,
      Function.update (Function.update h.obj h.next []) a
        (Obj.put (Function.update h.obj h.next [] a) k (RValue.mapRef (some h.next)))⟩ := by
  simp [Store.ensure, hr, Store.make, Store.write]

theorem store_ensure_nil (h : Store) (k : String) : h.ensure none k = none := rfl

theorem store_ensure_present (h : Store) (m : Ref) (k : String) (v : RValue)
    (hr : h.read m k = some v) : h.ensure m k = some h := by
  simp [Store.ensure, hr]

theorem store_set_cons2_nil (h : Store) (k k2 : String) (rest : List String) (x : RValue) :
    h.set none (k :: k2 :: rest) x = ⟨h, some Panic.nilMapWrite⟩ := rfl

theorem store_set_cons2_map (h : Store) (m m2 : Ref) (k k2 : String) (rest : List String)
    (x : RValue) (hr : h.read m k = some (RValue.mapRef m2)) :
    h.set m (k :: k2 :: rest) x = h.set m2 (k2 :: rest) x := by
  rw [store_set_cons2, store_ensure_present h m k _ hr]
  simp only [hr]

theorem store_set_cons2_leaf (h : Store) (m : Ref) (k k2 : String) (rest : List String)
    (x v : RValue) (hr : h.read m k = some v) (hv : v.isMap = false) :
    h.set m (k :: k2 :: rest) x = ⟨h, some Panic.typeAssertion⟩ := by
  rw [store_set_cons2, store_ensure_present h m k _ hr]
  simp only [hr]
  cases v with
  | mapRef r => simp [RValue.isMap] at hv
  | _ => rfl

theorem store_set_cons2_absent (h : Store) (a : Nat) (k k2 : String) (rest : List String)
    (x : RValue) (hr : h.read (some a) k = none) :
    h.set (some a) (k :: k2 :: rest) x = (h.grown a k).set (some h.next) (k2 :: rest) x := by
  rw [store_set_cons2, store_ensure_absent h a k hr]
  have : Store.read ⟨h.next + 1, Function.update (Function.update h.obj h.next []) a
      (Obj.put (Function.update h.obj h.next [] a) k (RValue.mapRef (some h.next)))⟩
      (some a) k = some (RValue.mapRef (some h.next)) := by
    simp [Store.read, Store.entries, find_put_self]
  simp only [this]
  rfl

/-! ## The store after a map was created -/

theorem grown_next (h : Store) (a : Nat) (k : String) : (h.grown a k).next = h.next + 1 := rfl

theorem grown_obj_other (h : Store) (a b : Nat) (k : String) (hba : b ≠ a) (hbn : b ≠ h.next) :
    (h.grown a k).obj b = h.obj b := by
  simp [Store.grown, Function.update, hba, hbn]

theorem grown_obj_self (h : Store) (a : Nat) (k : String) (ha : a ≠ h.next) :
    (h.grown a k).obj a = Obj.put (h.obj a) k (RValue.mapRef (some h.next)) := by
  simp [Store.grown, Function.update, ha]

theorem grown_obj_new (h : Store) (a : Nat) (k : String) (ha : a ≠ h.next) :
    (h.grown a k).obj h.next = [] := by
  simp [Store.grown, Function.update, Ne.symm ha]

/-- The new map holds nothing but, at most, itself. -/
theorem grown_new_selfOnly (h : Store) (a : Nat) (k : String) :
    ∀ k' v, Obj.find ((h.grown a k).obj h.next) k' = some v →
      v = RValue.mapRef (some h.next) := by
  intro k' v hv
  by_cases ha : a = h.next
  · subst ha
    simp [Store.grown, Function.update, Obj.put, Obj.find] at hv
    exact hv.2.symm
  · rw [grown_obj_new h a k ha] at hv
    simp [Obj.find] at hv

/-! ## Descent in a store -/

theorem store_descend_nil (h : Store) (m : Ref) : h.descend m [] = some m := rfl

theorem store_descend_cons_map (h : Store) (m m2 : Ref) (k : String) (ks : List String)
    (hr : h.read m k = some (RValue.mapRef m2)) :
    h.descend m (k :: ks) = h.descend m2 ks := by
  simp [Store.descend, hr]

theorem store_descend_cons_none (h : Store) (m : Ref) (k : String) (ks : List String)
    (hr : h.read m k = none) : h.descend m (k :: ks) = none := by
  simp [Store.descend, hr]

theorem store_descend_cons_leaf (h : Store) (m : Ref) (k : String) (ks : List String)
    (v : RValue) (hr : h.read m k = some v) (hv : v.isMap = false) :
    h.descend m (k :: ks) = none := by
  cases v with
  | mapRef r => simp [RValue.isMap] at hv
  | _ => simp [Store.descend, hr]

theorem store_descend_cons_some (h : Store) (m r : Ref) (k : String) (ks : List String)
    (hd : h.descend m (k :: ks) = some r) :
    ∃ m2, h.read m k = some (RValue.mapRef m2) ∧ h.descend m2 ks = some r := by
  cases hr : h.read m k with
  | none => rw [store_descend_cons_none h m k ks hr] at hd; cases hd
  | some v =>
    cases v with
    | mapRef m2 => exact ⟨m2, rfl, by rw [store_descend_cons_map h m m2 k ks hr] at hd; exact hd⟩
    | _ => rw [store_descend_cons_leaf h m k ks _ hr rfl] at hd; cases hd

/-- From an object that holds nothing but itself the descent stays there. -/
theorem store_descend_selfOnly (h : Store) (n : Nat)
    (hs : ∀ k v, Obj.find (h.obj n) k = some v → v = RValue.mapRef (some n))
    (q : List String) (r : Ref) (hd : h.descend (some n) q = some r) : r = some n := by
  induction q with
  | nil =>
    simp [Store.descend] at hd
    exact hd.symm
  | cons k ks ih =>
    obtain ⟨m2, hr, hd2⟩ := store_descend_cons_some h (some n) r k ks hd
    have := hs k _ hr
    simp at this
    subst this
    exact ih hd2

/-! ## When `set` panics on a store -/

theorem store_not_leafOnPath_short (h : Store) (m : Ref) (p : List String)
    (hp : p.length < 2) : ¬ h.leafOnPath m p := by
  rintro ⟨pre, k, post, m', v, hpe, hne, -⟩
  subst hpe
  cases post with
  | nil => exact hne rfl
  | cons a b => simp at hp; omega

theorem store_leafOnPath_here (h : Store) (m : Ref) (k k2 : String) (r : List String)
    (v : RValue) (hr : h.read m k = some v) (hv : v.isMap = false) :
    h.leafOnPath m (k :: k2 :: r) :=
  ⟨[], k, k2 :: r, m, v, rfl, by simp, rfl, hr, hv⟩

theorem store_leafOnPath_cons_map (h : Store) (m m2 : Ref) (k : String) (rest : List String)
    (hr : h.read m k = some (RValue.mapRef m2)) :
    h.leafOnPath m (k :: rest) ↔ h.leafOnPath m2 rest := by
  constructor
  · rintro ⟨pre, k', post, m', v, hp, hne, hd, hk, hv⟩
    cases pre with
    | nil =>
      simp at hp
      obtain ⟨rfl, rfl⟩ := hp
      simp [Store.descend] at hd
      subst hd
      rw [hr] at hk
      cases hk
      simp [RValue.isMap] at hv
    | cons a pre =>
      simp at hp
      obtain ⟨rfl, rfl⟩ := hp
      rw [store_descend_cons_map h m m2 k pre hr] at hd
      exact ⟨pre, k', post, m', v, rfl, hne, hd, hk, hv⟩
  · rintro ⟨pre, k', post, m', v, hp, hne, hd, hk, hv⟩
    refine ⟨k :: pre, k', post, m', v, by simp [hp], hne, ?_, hk, hv⟩
    rw [store_descend_cons_map h m m2 k pre hr]
    exact hd

theorem store_not_leafOnPath_cons_none (h : Store) (m : Ref) (k : String)
    (rest : List String) (hr : h.read m k = none) : ¬ h.leafOnPath m (k :: rest) := by
  rintro ⟨pre, k', post, m', v, hp, hne, hd, hk, hv⟩
  cases pre with
  | nil =>
    simp at hp
    obtain ⟨rfl, rfl⟩ := hp
    simp [Store.descend] at hd
    subst hd
    rw [hr] at hk
    cases hk
  | cons a pre =>
    simp at hp
    obtain ⟨rfl, rfl⟩ := hp
    rw [store_descend_cons_none h m k pre hr] at hd
    cases hd

theorem store_nilOnPath_nil (h : Store) (p : List String) (hp : p ≠ []) :
    h.nilOnPath none p :=
  ⟨[], p, rfl, hp, rfl⟩

theorem store_not_nilOnPath_empty (h : Store) (m : Ref) : ¬ h.nilOnPath m [] := by
  rintro ⟨pre, post, hp, hne, -⟩
  have := congrArg List.length hp
  simp only [List.length_nil, List.length_append] at this
  exact hne (List.length_eq_zero.mp (by omega))

theorem store_nilOnPath_cons_map (h : Store) (a : Nat) (m2 : Ref) (k : String)
    (rest : List String) (hr : h.read (some a) k = some (RValue.mapRef m2)) :
    h.nilOnPath (some a) (k :: rest) ↔ h.nilOnPath m2 rest := by
  constructor
  · rintro ⟨pre, post, hp, hne, hd⟩
    cases pre with
    | nil => simp [Store.descend] at hd
    | cons c pre =>
      simp at hp
      obtain ⟨rfl, rfl⟩ := hp
      rw [store_descend_cons_map h _ m2 k pre hr] at hd
      exact ⟨pre, post, rfl, hne, hd⟩
  · rintro ⟨pre, post, hp, hne, hd⟩
    refine ⟨k :: pre, post, by simp [hp], hne, ?_⟩
    rw [store_descend_cons_map h _ m2 k pre hr]
    exact hd

theorem store_not_nilOnPath_cons (h : Store) (a : Nat) (k : String) (rest : List String)
    (hr : ∀ m2, h.read (some a) k ≠ some (RValue.mapRef m2)) :
    ¬ h.nilOnPath (some a) (k :: rest) := by
  rintro ⟨pre, post, hp, hne, hd⟩
  cases pre with
  | nil => simp [Store.descend] at hd
  | cons c pre =>
    simp at hp
    obtain ⟨rfl, rfl⟩ := hp
    obtain ⟨m2, hm2, -⟩ := store_descend_cons_some h _ _ k pre hd
    exact hr m2 hm2

theorem store_selfOnly_no_leaf (h : Store) (n : Nat)
    (hs : ∀ k v, Obj.find (h.obj n) k = some v → v = RValue.mapRef (some n))
    (p : List String) : ¬ h.leafOnPath (some n) p ∧ ¬ h.nilOnPath (some n) p := by
  constructor
  · rintro ⟨pre, k, post, m', v, -, -, hd, hk, hv⟩
    have := store_descend_selfOnly h n hs pre m' hd
    subst this
    rw [hs k v hk] at hv
    simp [RValue.isMap] at hv
  · rintro ⟨pre, post, -, -, hd⟩
    have := store_descend_selfOnly h n hs pre none hd
    cases this

theorem panic_cases (o : Option Panic) (h1 : o ≠ some Panic.typeAssertion)
    (h2 : o ≠ some Panic.nilMapWrite) : o = none := by
  cases o with
  | none => rfl
  | some p => cases p <;> simp at h1 h2

theorem store_set_panic_all (p : List String) (x : RValue) :
    ∀ (h : Store) (m : Ref),
      ((h.set m p x).panic = some Panic.typeAssertion ↔ h.leafOnPath m p) ∧
      ((h.set m p x).panic = some Panic.nilMapWrite ↔ h.nilOnPath m p) ∧
      ((h.set m p x).panic = some Panic.typeAssertion → (h.set m p x).store = h) := by
  induction p with
  | nil =>
    intro h m
    rw [store_set_nil]
    simp [store_not_leafOnPath_short, store_not_nilOnPath_empty]
  | cons k rest ih =>
    intro h m
    cases rest with
    | nil =>
      have hl : ¬ h.leafOnPath m [k] := store_not_leafOnPath_short h m [k] (by simp)
      cases m with
      | none =>
        rw [store_set_one, store_write_nil]
        simp [hl, store_nilOnPath_nil]
      | some a =>
        rw [store_set_one, store_write_some]
        have hn : ¬ h.nilOnPath (some a) [k] := by
          rintro ⟨pre, post, hp, hne, hd⟩
          cases pre with
          | nil => simp [Store.descend] at hd
          | cons c pre =>
            simp at hp
            exact hne hp.2.2
        simp [hl, hn]
    | cons k2 r =>
      cases m with
      | none =>
        rw [store_set_cons2_nil]
        have hl : ¬ h.leafOnPath none (k :: k2 :: r) :=
          store_not_leafOnPath_cons_none h none k (k2 :: r) rfl
        simp [hl, store_nilOnPath_nil]
      | some a =>
        cases hr : h.read (some a) k with
        | none =>
          rw [store_set_cons2_absent h a k k2 r x hr]
          obtain ⟨i1, i2, -⟩ := ih (h.grown a k) (some h.next)
          obtain ⟨s1, s2⟩ := store_selfOnly_no_leaf (h.grown a k) h.next
            (grown_new_selfOnly h a k) (k2 :: r)
          have e := panic_cases _ (fun e => s1 (i1.mp e)) (fun e => s2 (i2.mp e))
          have hl := store_not_leafOnPath_cons_none h (some a) k (k2 :: r) hr
          have hn := store_not_nilOnPath_cons h a k (k2 :: r) (by simp [hr])
          simp [e, hl, hn]
        | some v =>
          cases v with
          | mapRef m2 =>
            rw [store_set_cons2_map h _ m2 k k2 r x hr,
              store_leafOnPath_cons_map h _ m2 k (k2 :: r) hr,
              store_nilOnPath_cons_map h a m2 k (k2 :: r) hr]
            exact ih h m2
          | _ =>
            rw [store_set_cons2_leaf h _ k k2 r x _ hr rfl]
            have hl := store_leafOnPath_here h (some a) k k2 r _ hr rfl
            have hn := store_not_nilOnPath_cons h a k (k2 :: r) (by simp [hr])
            simp [hl, hn]

/-! ## What a write changes in a store -/

/-- A map object that existed before the call is left as it was, or has had
one key written: a key of the path, at a place where the descent along the path
reaches the object. -/
theorem store_set_obj (p : List String) (x : RValue) :
    ∀ (h : Store) (m : Ref) (b : Nat), b < h.next →
      (h.set m p x).store.obj b = h.obj b ∨
      ∃ p0 kp t y, p = p0 ++ kp :: t ∧ h.descend m p0 = some (some b) ∧
        (h.set m p x).store.obj b = Obj.put (h.obj b) kp y := by
  induction p with
  | nil => intro h m b _; exact Or.inl rfl
  | cons k rest ih =>
    intro h m b hb
    cases rest with
    | nil =>
      cases m with
      | none => exact Or.inl rfl
      | some a =>
        rw [store_set_one, store_write_some]
        by_cases hba : b = a
        · subst hba
          exact Or.inr ⟨[], k, [], x, rfl, rfl, by simp [Function.update]⟩
        · exact Or.inl (by simp [Function.update, hba])
    | cons k2 r =>
      cases m with
      | none => exact Or.inl rfl
      | some a =>
        cases hr : h.read (some a) k with
        | none =>
          rw [store_set_cons2_absent h a k k2 r x hr]
          have hbn : b ≠ h.next := by omega
          have hfin : ((h.grown a k).set (some h.next) (k2 :: r) x).store.obj b
              = (h.grown a k).obj b := by
            rcases ih (h.grown a k) (some h.next) b (by rw [grown_next]; omega) with e | e
            · exact e
            · obtain ⟨p0, kp, t, y, -, hd, -⟩ := e
              have := store_descend_selfOnly (h.grown a k) h.next
                (grown_new_selfOnly h a k) p0 _ hd
              simp at this
              exact absurd this hbn
          rw [hfin]
          by_cases hba : b = a
          · subst hba
            exact Or.inr ⟨[], k, k2 :: r, _, rfl, rfl, grown_obj_self h b k hbn⟩
          · exact Or.inl (grown_obj_other h a b k hba hbn)
        | some v =>
          cases v with
          | mapRef m2 =>
            rw [store_set_cons2_map h _ m2 k k2 r x hr]
            rcases ih h m2 b hb with e | ⟨p0, kp, t, y, hp, hd, he⟩
            · exact Or.inl e
            · refine Or.inr ⟨k :: p0, kp, t, y, by simp [hp], ?_, he⟩
              rw [store_descend_cons_map h _ m2 k p0 hr]
              exact hd
          | _ =>
            rw [store_set_cons2_leaf h _ k k2 r x _ hr rfl]
            exact Or.inl rfl

theorem store_set_obj_unchanged (h : Store) (m : Ref) (p : List String) (x : RValue)
    (b : Nat) (hb : b < h.next)
    (hdis : ∀ p0 kp t, p = p0 ++ kp :: t → h.descend m p0 ≠ some (some b)) :
    (h.set m p x).store.obj b = h.obj b := by
  rcases store_set_obj p x h m b hb with e | ⟨p0, kp, t, y, hp, hd, -⟩
  · exact e
  · exact absurd hd (hdis p0 kp t hp)

theorem store_set_find_unchanged (h : Store) (m : Ref) (p : List String) (x : RValue)
    (b : Nat) (key : String) (hb : b < h.next)
    (hdis : ∀ p0 kp t, p = p0 ++ kp :: t → h.descend m p0 = some (some b) → key ≠ kp) :
    Obj.find ((h.set m p x).store.obj b) key = Obj.find (h.obj b) key := by
  rcases store_set_obj p x h m b hb with e | ⟨p0, kp, t, y, hp, hd, he⟩
  · rw [e]
  · rw [he]
    exact find_put_ne _ kp key y (Ne.symm (hdis p0 kp t hp hd))

/-- A read depends only on the entries it meets on its descent. -/
theorem store_get_congr (h h' : Store) (q : List String) :
    ∀ (m : Ref),
      (∀ q0 k t b, q = q0 ++ k :: t → h.descend m q0 = some (some b) →
        Obj.find (h'.obj b) k = Obj.find (h.obj b) k) →
      h'.get m q = h.get m q := by
  induction q with
  | nil => intro m _; rfl
  | cons k rest ih =>
    intro m hyp
    have hread : h'.read m k = h.read m k := by
      cases m with
      | none => rfl
      | some b => exact hyp [] k rest b rfl rfl
    cases rest with
    | nil => rw [store_get_one, store_get_one, hread]
    | cons k2 r =>
      rw [store_get_cons2, store_get_cons2, hread]
      cases hr : h.read m k with
      | none => rfl
      | some v =>
        cases v with
        | mapRef m2 =>
          simp only
          apply ih m2
          intro q0 k' t b hq hd
          refine hyp (k :: q0) k' t b (by simp [hq]) ?_
          rw [store_descend_cons_map h m m2 k q0 hr]
          exact hd
        | _ => rfl

/-! ## Writes into a new map -/

/-- The object under which a map was just created is not touched by the rest of
the write, which goes on in the new map. -/
theorem grown_set_obj (h : Store) (a : Nat) (k : String) (p : List String) (x : RValue)
    (ha : a < h.next) :
    ((h.grown a k).set (some h.next) p x).store.obj a
      = Obj.put (h.obj a) k (RValue.mapRef (some h.next)) := by
  have hne : a ≠ h.next := by omega
  rw [store_set_obj_unchanged (h.grown a k) (some h.next) p x a (by rw [grown_next]; omega),
    grown_obj_self h a k hne]
  intro p0 kp t _ hd
  have := store_descend_selfOnly (h.grown a k) h.next (grown_new_selfOnly h a k) p0 _ hd
  simp at this
  exact hne this

theorem store_fresh_chain (p : List String) (x : RValue) :
    ∀ (h : Store) (n : Nat), p ≠ [] → h.obj n = [] → n < h.next →
      (h.set (some n) p x).panic = none ∧
      (h.set (some n) p x).store.holdsChain (RValue.mapRef (some n)) p x := by
  induction p with
  | nil => intro h n hp; exact absurd rfl hp
  | cons k rest ih =>
    intro h n _ hobj hn
    cases rest with
    | nil =>
      rw [store_set_one, store_write_some]
      refine ⟨rfl, n, x, rfl, ?_, rfl⟩
      simp [Function.update, hobj, Obj.put]
    | cons k2 r =>
      have hr : h.read (some n) k = none := by
        rw [store_read_some, hobj]
        rfl
      rw [store_set_cons2_absent h n k k2 r x hr]
      have hne : n ≠ h.next := by omega
      obtain ⟨h1, h2⟩ := ih (h.grown n k) h.next (by simp) (grown_obj_new h n k hne)
        (by rw [grown_next]; omega)
      refine ⟨h1, n, RValue.mapRef (some h.next), rfl, ?_, h2⟩
      rw [grown_set_obj h n k (k2 :: r) x hn, hobj]
      rfl

/-- In a map that a write has just built, a path that leaves the written path
is absent. -/
theorem store_fresh_get (rest : List String) (x : RValue) :
    ∀ (h : Store) (n : Nat) (q : List String), h.obj n = [] → n < h.next →
      ¬ rest <+: q → ¬ q <+: rest →
      (h.set (some n) rest x).store.get (some n) q = (RValue.nil, false) := by
  induction rest with
  | nil => intro h n q _ _ h1 _; exact absurd List.nil_prefix h1
  | cons k rest ih =>
    intro h n q hobj hn h1 h2
    cases q with
    | nil => exact absurd List.nil_prefix h2
    | cons k' q' =>
      cases rest with
      | nil =>
        have hk : k ≠ k' := by
          rintro rfl
          exact h1 ((List.prefix_cons_inj k).mpr List.nil_prefix)
        rw [store_set_one, store_write_some]
        apply store_get_cons_of_none
        simp [Store.read, Store.entries, Function.update, hobj, Obj.put, Obj.find, hk]
      | cons k2 r =>
        have hr : h.read (some n) k = none := by
          rw [store_read_some, hobj]
          rfl
        rw [store_set_cons2_absent h n k k2 r x hr]
        have hne : n ≠ h.next := by omega
        have hobjn := grown_set_obj h n k (k2 :: r) x hn
        rw [hobj] at hobjn
        by_cases hk : k = k'
        · subst hk
          have h1' : ¬ (k2 :: r) <+: q' := fun e => h1 ((List.prefix_cons_inj k).mpr e)
          have h2' : ¬ q' <+: (k2 :: r) := fun e => h2 ((List.prefix_cons_inj k).mpr e)
          cases q' with
          | nil => exact absurd List.nil_prefix h2'
          | cons a b =>
            rw [store_get_cons2_map _ _ (some h.next) k a b
              (by rw [store_read_some, hobjn]; simp [Obj.put, Obj.find])]
            exact ih (h.grown n k) h.next (a :: b) (grown_obj_new h n k hne)
              (by rw [grown_next]; omega) h1' h2'
        · apply store_get_cons_of_none
          rw [store_read_some, hobjn]
          simp [Obj.put, Obj.find, hk]

/-! ## What a write leaves alone in a store -/

theorem store_set_nil_panics (h : Store) (p : List String) (x : RValue) (hp : p ≠ []) :
    (h.set none p x).panic = some Panic.nilMapWrite := by
  cases p with
  | nil => exact absurd rfl hp
  | cons k rest =>
    cases rest with
    | nil => rfl
    | cons k2 r => rfl

theorem store_frame (p : List String) (x : RValue) :
    ∀ (h : Store) (m : Ref) (q : List String),
      (∀ p0 q0 a, p0 <+: p → q0 <+: q → h.descend m p0 = some (some a) →
        h.descend m q0 = some (some a) → p0 = q0) →
      (∀ q0 a, q0 <+: q → h.descend m q0 = some (some a) → a < h.next) →
      (h.set m p x).panic = none → ¬ p <+: q → ¬ q <+: p →
      (h.set m p x).store.get m q = h.get m q := by
  induction p with
  | nil => intro h m q _ _ _ h1 _; exact absurd List.nil_prefix h1
  | cons k rest ih =>
    intro h m q hap hal hnp h1 h2
    cases q with
    | nil => exact absurd List.nil_prefix h2
    | cons k' q' =>
      cases m with
      | none =>
        rw [store_set_nil_panics h (k :: rest) x (by simp)] at hnp
        cases hnp
      | some a0 =>
        have ha0 : a0 < h.next := hal [] a0 List.nil_prefix rfl
        by_cases hk : k = k'
        · subst hk
          have h1' : ¬ rest <+: q' := fun e => h1 ((List.prefix_cons_inj k).mpr e)
          have h2' : ¬ q' <+: rest := fun e => h2 ((List.prefix_cons_inj k).mpr e)
          cases rest with
          | nil => exact absurd List.nil_prefix h1'
          | cons k2 r =>
            cases q' with
            | nil => exact absurd List.nil_prefix h2'
            | cons a b =>
              cases hr : h.read (some a0) k with
              | none =>
                rw [store_get_cons_of_none h _ k (a :: b) hr]
                rw [store_set_cons2_absent h a0 k k2 r x hr]
                have hobj := grown_set_obj h a0 k (k2 :: r) x ha0
                rw [store_get_cons2_map _ _ (some h.next) k a b
                  (by rw [store_read_some, hobj, find_put_self])]
                exact store_fresh_get (k2 :: r) x (h.grown a0 k) h.next (a :: b)
                  (grown_obj_new h a0 k (by omega)) (by rw [grown_next]; omega) h1' h2'
              | some v =>
                cases v with
                | mapRef m2 =>
                  rw [store_set_cons2_map h _ m2 k k2 r x hr] at hnp ⊢
                  rw [store_get_cons2_map h _ m2 k a b hr]
                  have hread : (h.set m2 (k2 :: r) x).store.read (some a0) k
                      = some (RValue.mapRef m2) := by
                    rw [store_read_some, store_set_find_unchanged h m2 (k2 :: r) x a0 k ha0,
                      ← store_read_some, hr]
                    intro p0 kp t hp hd _
                    have hd' : h.descend (some a0) (k :: p0) = some (some a0) := by
                      rw [store_descend_cons_map h _ m2 k p0 hr]
                      exact hd
                    have := hap (k :: p0) [] a0
                      ((List.prefix_cons_inj k).mpr (hp ▸ List.prefix_append _ _))
                      List.nil_prefix hd' rfl
                    cases this
                  rw [store_get_cons2_map _ _ m2 k a b hread]
                  apply ih h m2 (a :: b) _ _ hnp h1' h2'
                  · intro p0 q0 c hp0 hq0 hd1 hd2
                    have := hap (k :: p0) (k :: q0) c ((List.prefix_cons_inj k).mpr hp0)
                      ((List.prefix_cons_inj k).mpr hq0)
                      (by rw [store_descend_cons_map h _ m2 k p0 hr]; exact hd1)
                      (by rw [store_descend_cons_map h _ m2 k q0 hr]; exact hd2)
                    simpa using this
                  · intro q0 c hq0 hd
                    exact hal (k :: q0) c ((List.prefix_cons_inj k).mpr hq0)
                      (by rw [store_descend_cons_map h _ m2 k q0 hr]; exact hd)
                | _ =>
                  rw [store_set_cons2_leaf h _ k k2 r x _ hr rfl] at hnp
                  cases hnp
        · apply store_get_congr
          intro q0 kq t b hq hd
          have hq0 : q0 <+: k' :: q' := hq ▸ List.prefix_append _ _
          apply store_set_find_unchanged h (some a0) (k :: rest) x b kq (hal q0 b hq0 hd)
          intro p0 kp t' hp hd' hkk
          have hp0 : p0 <+: k :: rest := hp ▸ List.prefix_append _ _
          have := hap p0 q0 b hp0 hq0 hd' hd
          subst this
          subst hkk
          cases p0 with
          | nil =>
            simp at hp hq
            exact hk (hp.1.trans hq.1.symm)
          | cons c p0 =>
            simp at hp hq
            exact hk (hp.1.trans hq.1.symm)

/-! ## The properties of `set` on maps held by reference -/

/-- C4, as the code has it: `set` panics on its type assertion exactly when the
path has at least two segments and some segment before the last is present with
a value that is not a map, the segments before it holding maps; the store is
then the one the call was given.  It panics on a write into a nil map exactly
when the descent along a proper prefix of the path reaches a nil map, the map
given included.  In every other case `set` ends without a panic. -/
theorem store_set_panic_iff (h : Store) (m : Ref) (p : List String) (x : RValue) :
    ((h.set m p x).panic = some Panic.typeAssertion ↔ (2 ≤ p.length ∧ h.leafOnPath m p)) ∧
    ((h.set m p x).panic = some Panic.typeAssertion → (h.set m p x).store = h) ∧
    ((h.set m p x).panic = some Panic.nilMapWrite ↔ h.nilOnPath m p) ∧
    ((h.set m p x).panic = none ↔ (¬ h.leafOnPath m p ∧ ¬ h.nilOnPath m p)) := by
  obtain ⟨i1, i2, i3⟩ := store_set_panic_all p x h m
  refine ⟨⟨fun e => ⟨?_, i1.mp e⟩, fun e => i1.mpr e.2⟩, i3, i2, ?_⟩
  · by_contra hlen
    exact store_not_leafOnPath_short h m p (by omega) (i1.mp e)
  · constructor
    · intro e
      refine ⟨fun hl => ?_, fun hn => ?_⟩
      · rw [i1.mpr hl] at e; cases e
      · rw [i2.mpr hn] at e; cases e
    · rintro ⟨hl, hn⟩
      exact panic_cases _ (fun e => hl (i1.mp e)) (fun e => hn (i2.mp e))

theorem store_set_panic_iff_witness :
    (2 ≤ ["1", "1", "1"].length ∧ exampleStore.leafOnPath (some 0) ["1", "1", "1"]) ∧
    (exampleStore.set (some 0) ["1", "1", "1"] (RValue.int 0)).store = exampleStore ∧
    nilEntryStore.nilOnPath (some 0) ["a", "b"] ∧
    (¬ exampleStore.leafOnPath (some 0) ["1", "4", "1"] ∧
      ¬ exampleStore.nilOnPath (some 0) ["1", "4", "1"]) :=
  ⟨(store_set_panic_iff exampleStore (some 0) ["1", "1", "1"] (RValue.int 0)).1.mp (by decide),
   (store_set_panic_iff exampleStore (some 0) ["1", "1", "1"] (RValue.int 0)).2.1 (by decide),
   (store_set_panic_iff nilEntryStore (some 0) ["a", "b"] (RValue.int 1)).2.2.1.mp (by decide),
   (store_set_panic_iff exampleStore (some 0) ["1", "4", "1"] (RValue.int 0)).2.2.2.mp
     (by decide)⟩

/-- C4 fails as stated: in the map `{"a": nil map}` no segment of the path
"a.b" holds a value that is not a map, and yet `set` panics, on the write into
the nil map. -/
theorem store_set_panic_iff_counterexample :
    ¬ nilEntryStore.leafOnPath (some 0) ["a", "b"] ∧
    (nilEntryStore.set (some 0) ["a", "b"] (RValue.int 1)).panic
      = some Panic.nilMapWrite := by
  refine ⟨fun hl => ?_, by decide⟩
  have e := (store_set_panic_all ["a", "b"] (RValue.int 1) nilEntryStore (some 0)).1.mpr hl
  exact absurd e (by decide)

/-- C14, as the code has it: on a record whose map is not nil, `Set "" v` does
not panic, binds the key "" of that map to `v`, and leaves every other key of
the map and every other map object as they were; the map is unchanged when it
bound "" to `v` already.  On a record whose map is nil the call panics. -/
theorem store_Set_empty_string (h : Store) (a : Nat) (v : RValue) :
    (h.Set (some a) "" v).panic = none ∧
    (h.Set (some a) "" v).store.read (some a) "" = some v ∧
    (∀ k, k ≠ "" → (h.Set (some a) "" v).store.read (some a) k = h.read (some a) k) ∧
    (∀ b, b ≠ a → (h.Set (some a) "" v).store.obj b = h.obj b) ∧
    (h.read (some a) "" = some v → (h.Set (some a) "" v).store.obj a = h.obj a) ∧
    (h.Set none "" v).panic = some Panic.nilMapWrite := by
  have e : h.Set (some a) "" v
      = ⟨⟨h.next, Function.update h.obj a (Obj.put (h.obj a) "" v)⟩, none⟩ := rfl
  rw [e]
  refine ⟨rfl, ?_, fun k hk => ?_, fun b hb => ?_, fun hr => ?_, rfl⟩
  · simp [Store.read, Store.entries, find_put_self]
  · simp [Store.read, Store.entries, find_put_ne _ "" k v (Ne.symm hk)]
  · simp [Function.update, hb]
  · have hp : Obj.put (h.obj a) "" v = h.obj a := put_find_same (h.obj a) "" v hr
    simp [hp]

theorem store_Set_empty_string_witness :
    (exampleStore.Set (some 0) "" (RValue.int 0)).panic = none ∧
    (exampleStore.Set (some 0) "" (RValue.int 0)).store.read (some 0) "" = some (RValue.int 0) ∧
    (exampleStore.Set (some 0) "" (RValue.int 0)).store.read (some 0) "1"
      = exampleStore.read (some 0) "1" :=
  ⟨(store_Set_empty_string exampleStore 0 (RValue.int 0)).1,
   (store_Set_empty_string exampleStore 0 (RValue.int 0)).2.1,
   (store_Set_empty_string exampleStore 0 (RValue.int 0)).2.2.1 "1" (by decide)⟩

/-- C14 fails as stated: on the example map `Set "" 0` adds the key "", which
the map did not have. -/
theorem store_Set_empty_string_counterexample :
    exampleStore.read (some 0) "" = none ∧
    (exampleStore.Set (some 0) "" (RValue.int 0)).store.read (some 0) ""
      = some (RValue.int 0) := by
  decide

/-- C15, as the code has it: when the map is an object of the store (not nil),
its key `k` is absent and further segments `rest` follow, `set` does not panic,
binds `k` to the chain of one-key maps along `rest` that ends in `x`, and
leaves every other key of the map with the value it had.  On an empty map the
path `k :: rest` yields the chain `{k: {... : x}}`. -/
theorem store_set_creates (h : Store) (a : Nat) (k : String) (rest : List String)
    (x : RValue) (ha : a < h.next) (hk : h.read (some a) k = none) (hr : rest ≠ []) :
    (h.set (some a) (k :: rest) x).panic = none ∧
    (∃ v, (h.set (some a) (k :: rest) x).store.read (some a) k = some v ∧
      (h.set (some a) (k :: rest) x).store.holdsChain v rest x) ∧
    (∀ k', k' ≠ k →
      (h.set (some a) (k :: rest) x).store.read (some a) k' = h.read (some a) k') ∧
    (h.obj a = [] →
      (h.set (some a) (k :: rest) x).store.holdsChain (RValue.mapRef (some a)) (k :: rest) x) := by
  obtain ⟨k2, r, rfl⟩ : ∃ k2 r, rest = k2 :: r := by
    cases rest with
    | nil => exact absurd rfl hr
    | cons c d => exact ⟨c, d, rfl⟩
  have hne : a ≠ h.next := by omega
  have hobj := grown_set_obj h a k (k2 :: r) x ha
  obtain ⟨c1, c2⟩ := store_fresh_chain (k2 :: r) x (h.grown a k) h.next (by simp)
    (grown_obj_new h a k hne) (by rw [grown_next]; omega)
  refine ⟨?_, ⟨RValue.mapRef (some h.next), ?_, ?_⟩, fun k' hk' => ?_, fun he => ?_⟩
  · rw [store_set_cons2_absent h a k k2 r x hk]
    exact c1
  · rw [store_set_cons2_absent h a k k2 r x hk, store_read_some, hobj, find_put_self]
  · rw [store_set_cons2_absent h a k k2 r x hk]
    exact c2
  · rw [store_set_cons2_absent h a k k2 r x hk, store_read_some, hobj,
      find_put_ne _ k k' _ (Ne.symm hk')]
    rfl
  · exact (store_fresh_chain (k :: k2 :: r) x h a (by simp) he ha).2

theorem store_set_creates_witness :
    (0 < exampleStore.next ∧ exampleStore.read (some 0) "4" = none) ∧
    (exampleStore.set (some 0) ("4" :: ["1", "2"]) (RValue.int 0)).panic = none ∧
    (exampleStore.set (some 0) ("4" :: ["1", "2"]) (RValue.int 0)).store.read (some 0) "1"
      = exampleStore.read (some 0) "1" :=
  ⟨⟨by decide, by decide⟩,
   (store_set_creates exampleStore 0 "4" ["1", "2"] (RValue.int 0) (by decide) (by decide)
     (by simp)).1,
   (store_set_creates exampleStore 0 "4" ["1", "2"] (RValue.int 0) (by decide) (by decide)
     (by simp)).2.2.1 "1" (by decide)⟩

/-- C15 fails as stated: every key is absent from a nil map, and `set` on a nil
map with the path "4.1" panics on its first write. -/
theorem store_set_creates_counterexample :
    exampleStore.read none "4" = none ∧
    (exampleStore.set none ("4" :: ["1"]) (RValue.int 0)).panic
      = some Panic.nilMapWrite := by
  decide

/-- C18, as the code has it: a write that does not panic changes nothing off
its path as long as no map is shared between the two paths: when neither of `p`
and `q` is a prefix of the other, no map object is met at two different places
on the descents along `p` and `q`, and the maps met along `q` are objects of
the store, `get` at `q` returns after `set` the pair it returned before. -/
theorem store_set_frame (h : Store) (m : Ref) (p q : List String) (x : RValue)
    (hf : (h.set m p x).panic = none) (h1 : ¬ p <+: q) (h2 : ¬ q <+: p)
    (hap : h.apart m p q) (hal : h.allocatedAlong m q) :
    (h.set m p x).store.get m q = h.get m q := by
  apply store_frame p x h m q _ _ hf h1 h2
  · intro p0 q0 a hp0 hq0 hd1 hd2
    have e1 : h.addrAt m p0 = some a := by simp [Store.addrAt, hd1]
    have e2 : h.addrAt m q0 = some a := by simp [Store.addrAt, hd2]
    rcases hap p0 ((List.mem_inits _ _).mpr hp0) q0 ((List.mem_inits _ _).mpr hq0)
      (e1.trans e2.symm) with e | e
    · rw [e1] at e; cases e
    · exact e
  · intro q0 a hq0 hd
    exact hal q0 ((List.mem_inits _ _).mpr hq0) a (by simp [Store.addrAt, hd])

theorem store_set_frame_witness :
    (exampleStore.Set (some 0) "1.3" (RValue.int 13)).panic = none ∧
    (exampleStore.Set (some 0) "1.3" (RValue.int 13)).store.get (some 0) ["1", "1"]
      = exampleStore.get (some 0) ["1", "1"] ∧
    (exampleStore.Set (some 0) "1.3" (RValue.int 13)).store.get (some 0) ["1", "3"]
      = (RValue.int 13, true) :=
  ⟨by decide,
   store_set_frame exampleStore (some 0) (Split "1.3") ["1", "1"] (RValue.int 13)
    (by decide) (by decide) (by decide) (by unfold Store.apart; decide)
    (by unfold Store.allocatedAlong; decide), by decide⟩

/-- C18 fails as stated: once the keys "1" and "4" of the example map hold the
same map, `Set "1.3" 13` does not panic, the paths "1.3" and "4.3" leave each
other at their first segment, and the read of "4.3" changes from not found to
13. -/
theorem store_set_frame_counterexample :
    (sharedStore.Set (some 0) "1.3" (RValue.int 13)).panic = none ∧
    ¬ Split "1.3" <+: ["4", "3"] ∧ ¬ ["4", "3"] <+: Split "1.3" ∧
    sharedStore.get (some 0) ["4", "3"] = (RValue.nil, false) ∧
    (sharedStore.Set (some 0) "1.3" (RValue.int 13)).store.get (some 0) ["4", "3"]
      = (RValue.int 13, true) := by
  decide

end GoRecord
